import Mathlib

/-!
Verification of the bidirectional .xcstrings editor (`src/app/page.tsx`).

The page manipulates raw JSON values dynamically (the TypeScript types are
only casts on the result of `JSON.parse`), so the embedding works on a type
`JsValue` of JSON runtime values together with the JavaScript operations the
source uses: truthiness, `typeof`, `Object.keys`, property reads and writes
(a write to a property of a primitive throws `TypeError` in strict mode,
modelled through `jsAssignable`), and the `JSON.stringify`/`JSON.parse`
round trip (which drops expando properties attached to arrays).

Raw text is modelled by its `JSON.parse` image: an `Option JsValue`, `none`
standing for text that is not well-formed JSON.  No claim distinguishes two
texts with the same parse, and the only operations the source performs on
the text buffer are `JSON.parse`, `JSON.stringify` and storage round trips.

Numbers are modelled as integers (`Int`): the only numeric values the core
logic produces or inspects are small counters, and integer JSON numbers
round-trip exactly through `JSON.stringify`/`JSON.parse`.

JavaScript details kept by the model: `typeof null === "object"`; arrays and
`{}` are truthy, `""`/`0`/`false`/`null` are falsy; `Object.keys` of a string
primitive returns its index strings and indexing a string yields one-character
strings; assigning to a property of a primitive throws `TypeError` (strict
mode, as in an ES module); `JSON.stringify` of an array prints only its
elements, dropping any non-index properties.  Details deliberately not
modelled (unreachable from the verified flows or irrelevant to the claims):
the exotic ordering of integer-like object keys, the `length` property of
primitive strings, UTF-16 vs code-point indexing inside astral characters,
and non-ASCII case folding of `toLowerCase`.
-/

/-- A JSON runtime value as produced by `JSON.parse` and mutated by the page.
`arr` carries, besides its elements, the list of non-index (expando)
properties that the canonicalizer can attach to an array; `JSON.parse` never
produces a non-empty `props` list. -/
inductive JsValue : Type where
  | null : JsValue
  | bool : Bool → JsValue
  | num : Int → JsValue
  | str : String → JsValue
  | arr : List JsValue → List (String × JsValue) → JsValue
  | obj : List (String × JsValue) → JsValue

mutual
/-- Decidable equality of JSON values (the nested inductive prevents
`deriving`). -/
def JsValue.decEq : (a b : JsValue) → Decidable (a = b)
  | .null, .null => isTrue rfl
  | .null, .bool _ => isFalse (by intro h; exact JsValue.noConfusion h)
  | .null, .num _ => isFalse (by intro h; exact JsValue.noConfusion h)
  | .null, .str _ => isFalse (by intro h; exact JsValue.noConfusion h)
  | .null, .arr _ _ => isFalse (by intro h; exact JsValue.noConfusion h)
  | .null, .obj _ => isFalse (by intro h; exact JsValue.noConfusion h)
  | .bool _, .null => isFalse (by intro h; exact JsValue.noConfusion h)
  | .bool a, .bool b =>
      if h : a = b then isTrue (by rw [h]) else
        isFalse (by intro hc; injection hc; contradiction)
  | .bool _, .num _ => isFalse (by intro h; exact JsValue.noConfusion h)
  | .bool _, .str _ => isFalse (by intro h; exact JsValue.noConfusion h)
  | .bool _, .arr _ _ => isFalse (by intro h; exact JsValue.noConfusion h)
  | .bool _, .obj _ => isFalse (by intro h; exact JsValue.noConfusion h)
  | .num _, .null => isFalse (by intro h; exact JsValue.noConfusion h)
  | .num _, .bool _ => isFalse (by intro h; exact JsValue.noConfusion h)
  | .num a, .num b =>
      if h : a = b then isTrue (by rw [h]) else
        isFalse (by intro hc; injection hc; contradiction)
  | .num _, .str _ => isFalse (by intro h; exact JsValue.noConfusion h)
  | .num _, .arr _ _ => isFalse (by intro h; exact JsValue.noConfusion h)
  | .num _, .obj _ => isFalse (by intro h; exact JsValue.noConfusion h)
  | .str _, .null => isFalse (by intro h; exact JsValue.noConfusion h)
  | .str _, .bool _ => isFalse (by intro h; exact JsValue.noConfusion h)
  | .str _, .num _ => isFalse (by intro h; exact JsValue.noConfusion h)
  | .str a, .str b =>
      if h : a = b then isTrue (by rw [h]) else
        isFalse (by intro hc; injection hc; contradiction)
  | .str _, .arr _ _ => isFalse (by intro h; exact JsValue.noConfusion h)
  | .str _, .obj _ => isFalse (by intro h; exact JsValue.noConfusion h)
  | .arr _ _, .null => isFalse (by intro h; exact JsValue.noConfusion h)
  | .arr _ _, .bool _ => isFalse (by intro h; exact JsValue.noConfusion h)
  | .arr _ _, .num _ => isFalse (by intro h; exact JsValue.noConfusion h)
  | .arr _ _, .str _ => isFalse (by intro h; exact JsValue.noConfusion h)
  | .arr e1 p1, .arr e2 p2 =>
      match JsValue.decEqList e1 e2, JsValue.decEqFields p1 p2 with
      | isTrue h1, isTrue h2 => isTrue (by rw [h1, h2])
      | isFalse h1, _ => isFalse (by intro hc; injection hc; contradiction)
      | _, isFalse h2 => isFalse (by intro hc; injection hc; contradiction)
  | .arr _ _, .obj _ => isFalse (by intro h; exact JsValue.noConfusion h)
  | .obj _, .null => isFalse (by intro h; exact JsValue.noConfusion h)
  | .obj _, .bool _ => isFalse (by intro h; exact JsValue.noConfusion h)
  | .obj _, .num _ => isFalse (by intro h; exact JsValue.noConfusion h)
  | .obj _, .str _ => isFalse (by intro h; exact JsValue.noConfusion h)
  | .obj _, .arr _ _ => isFalse (by intro h; exact JsValue.noConfusion h)
  | .obj f1, .obj f2 =>
      match JsValue.decEqFields f1 f2 with
      | isTrue h1 => isTrue (by rw [h1])
      | isFalse h1 => isFalse (by intro hc; injection hc; contradiction)

/-- Decidable equality of element lists. -/
def JsValue.decEqList : (a b : List JsValue) → Decidable (a = b)
  | [], [] => isTrue rfl
  | [], _ :: _ => isFalse (by intro h; exact List.noConfusion h)
  | _ :: _, [] => isFalse (by intro h; exact List.noConfusion h)
  | x :: xs, y :: ys =>
      match JsValue.decEq x y, JsValue.decEqList xs ys with
      | isTrue h1, isTrue h2 => isTrue (by rw [h1, h2])
      | isFalse h1, _ => isFalse (by intro hc; injection hc; contradiction)
      | _, isFalse h2 => isFalse (by intro hc; injection hc; contradiction)

/-- Decidable equality of field lists. -/
def JsValue.decEqFields : (a b : List (String × JsValue)) → Decidable (a = b)
  | [], [] => isTrue rfl
  | [], _ :: _ => isFalse (by intro h; exact List.noConfusion h)
  | _ :: _, [] => isFalse (by intro h; exact List.noConfusion h)
  | (k1, v1) :: xs, (k2, v2) :: ys =>
      if hk : k1 = k2 then
        match JsValue.decEq v1 v2, JsValue.decEqFields xs ys with
        | isTrue h1, isTrue h2 => isTrue (by rw [hk, h1, h2])
        | isFalse h1, _ => isFalse (by
            intro hc
            injection hc with hp ht
            injection hp
            contradiction)
        | _, isFalse h2 => isFalse (by intro hc; injection hc; contradiction)
      else
        isFalse (by
          intro hc
          injection hc with hp ht
          injection hp
          contradiction)
end

instance : DecidableEq JsValue := JsValue.decEq

namespace JsValue

/-- JavaScript truthiness of a JSON value: `null`, `false`, `0` and `""` are
falsy; every object and array (even empty) is truthy. -/
def jsTruthy : JsValue → Bool
  | .null => false
  | .bool b => b
  | .num n => n != 0
  | .str s => s != ""
  | .arr _ _ => true
  | .obj _ => true

/-- `typeof v === "object"`: true exactly for `null`, arrays and objects. -/
def typeofObject : JsValue → Bool
  | .null => true
  | .arr _ _ => true
  | .obj _ => true
  | _ => false

/-- Values that accept property assignment without throwing (strict mode):
objects and arrays.  Assigning to a property of a primitive throws
`TypeError`. -/
def jsAssignable : JsValue → Bool
  | .arr _ _ => true
  | .obj _ => true
  | _ => false

end JsValue

/-- The decimal digit character of `n < 10`. -/
def digitChar (n : Nat) : Char := Char.ofNat (48 + n)

/-- The decimal digits of `n`, most significant first, with explicit fuel so
that the kernel can evaluate it (the first argument strictly decreases). -/
def natDigitsAux : Nat → Nat → List Char
  | 0, _ => []
  | fuel + 1, n => if n < 10 then [digitChar n] else natDigitsAux fuel (n / 10) ++ [digitChar (n % 10)]

/-- The decimal rendering of a natural number (`String(n)` in JavaScript). -/
def natToString (n : Nat) : String := String.mk (natDigitsAux (n + 1) n)

/-- The numeric value of a digit list. -/
def digitsToNat (cs : List Char) : Nat := cs.foldl (fun n c => n * 10 + (c.toNat - 48)) 0

/-- The natural number denoted by a non-empty all-digit string. -/
def charsToNat? (cs : List Char) : Option Nat :=
  match cs with
  | [] => none
  | _ => if cs.all (fun c => c.isDigit) then some (digitsToNat cs) else none

/-- The canonical array-index reading of a property name, as JavaScript uses
for arrays and strings: `"7"` is the index 7, while `"07"` or `"x"` are not
indices (an index is a string equal to the decimal rendering of its value). -/
def toIndex (s : String) : Option Nat :=
  match charsToNat? s.data with
  | some n => if natToString n = s then some n else none
  | none => none

/-- First-occurrence lookup in an object's field list.  JavaScript objects
never hold a duplicated key, so first-occurrence lookup agrees with property
lookup. -/
def lookupField : List (String × JsValue) → String → Option JsValue
  | [], _ => none
  | (k', v') :: rest, k => if k' = k then some v' else lookupField rest k

/-- Assignment `o[k] = v` on a field list: updates the first occurrence in
place (JavaScript keeps the property's position) or appends a new field at
the end. -/
def setField : List (String × JsValue) → String → JsValue → List (String × JsValue)
  | [], k, v => [(k, v)]
  | (k', v') :: rest, k, v =>
      if k' = k then (k, v) :: rest else (k', v') :: setField rest k v

namespace JsValue

/-- Property read `v[k]`: `none` models the JavaScript `undefined`.  Objects
look the key up among their fields; arrays read an in-range index from the
elements and anything else from their expando properties; a string primitive
yields its one-character strings at index positions.  Reading a property of
`null` throws in JavaScript; every use of this function in the model is
guarded the way the source is (`?.`, `|| {}`, or a preceding `typeof`
validation), except where a `TypeError` is modelled explicitly. -/
def jsGet : JsValue → String → Option JsValue
  | .obj fs, k => lookupField fs k
  | .arr elems props, k =>
      match toIndex k with
      | some i => if h : i < elems.length then some (elems.get ⟨i, h⟩) else lookupField props k
      | none => lookupField props k
  | .str s, k =>
      match toIndex k with
      | some i =>
          if h : i < s.data.length then some (.str (String.mk [s.data.get ⟨i, h⟩])) else none
      | none => none
  | _, _ => none

/-- Property write `v[k] := w`, defined on objects and arrays (the
`jsAssignable` values); on a primitive the result is unspecified (the caller
models the strict-mode `TypeError` instead, see `jsAssignable`). -/
def jsSet : JsValue → String → JsValue → JsValue
  | .obj fs, k, w => .obj (setField fs k w)
  | .arr elems props, k, w =>
      match toIndex k with
      | some i =>
          if i < elems.length then .arr (elems.set i w) props
          else .arr elems (setField props k w)
      | none => .arr elems (setField props k w)
  | v, _, _ => v

/-- `Object.keys v`: field names of an object, index strings followed by
expando property names of an array, index strings of a string primitive,
and `[]` for the remaining primitives. -/
def jsKeys : JsValue → List String
  | .obj fs => fs.map Prod.fst
  | .arr elems props => (List.range elems.length).map natToString ++ props.map Prod.fst
  | .str s => (List.range s.data.length).map natToString
  | _ => []

end JsValue

mutual
/-- The value obtained by `JSON.parse(JSON.stringify(v))` (also the source's
`deepClone`): the identity except that expando properties of arrays are
dropped, since `JSON.stringify` prints only the elements of an array. -/
def stripArrProps : JsValue → JsValue
  | .null => .null
  | .bool b => .bool b
  | .num n => .num n
  | .str s => .str s
  | .arr elems _ => .arr (stripArrPropsList elems) []
  | .obj fs => .obj (stripArrPropsFields fs)

/-- `stripArrProps` on a list of elements. -/
def stripArrPropsList : List JsValue → List JsValue
  | [] => []
  | v :: rest => stripArrProps v :: stripArrPropsList rest

/-- `stripArrProps` on a field list. -/
def stripArrPropsFields : List (String × JsValue) → List (String × JsValue)
  | [] => []
  | (k, v) :: rest => (k, stripArrProps v) :: stripArrPropsFields rest
end

mutual
/-- A JSON value containing no array anywhere. -/
def ArrFree : JsValue → Prop
  | .arr _ _ => False
  | .obj fs => ArrFreeFields fs
  | _ => True

/-- `ArrFree` on a field list. -/
def ArrFreeFields : List (String × JsValue) → Prop
  | [] => True
  | (_, v) :: rest => ArrFree v ∧ ArrFreeFields rest
end

mutual
instance ArrFree.dec : (v : JsValue) → Decidable (ArrFree v)
  | .null => by unfold ArrFree; exact inferInstance
  | .bool _ => by unfold ArrFree; exact inferInstance
  | .num _ => by unfold ArrFree; exact inferInstance
  | .str _ => by unfold ArrFree; exact inferInstance
  | .arr _ _ => by unfold ArrFree; exact inferInstance
  | .obj fs => by unfold ArrFree; exact ArrFreeFields.dec fs

instance ArrFreeFields.dec : (fs : List (String × JsValue)) → Decidable (ArrFreeFields fs)
  | [] => by unfold ArrFreeFields; exact inferInstance
  | (_, v) :: rest => by
      unfold ArrFreeFields
      have := ArrFree.dec v
      have := ArrFreeFields.dec rest
      exact inferInstance
end

/-! ## Source definitions: canonicalizer (`ensureLanguagePresent`) -/

/-- The default string unit `{ state: "needsLocalization", value: "" }` the
source inserts for a missing unit (page.tsx:52, 55-58, 184, 186-189). -/
def defaultStringUnit : JsValue :=
  .obj [("state", .str "needsLocalization"), ("value", .str "")]

/-- The default localization `{ stringUnit: defaultStringUnit }` inserted for
a missing language (page.tsx:51-53, 183-185). -/
def defaultLocalization : JsValue := .obj [("stringUnit", defaultStringUnit)]

/-- `data.strings[key] || {}` (page.tsx:48): the current entry if truthy,
`{}` otherwise. -/
def entryBase (e0 : JsValue) : JsValue := if e0.jsTruthy then e0 else .obj []

/-- `entry.localizations || {}` (page.tsx:49): the current `localizations`
if truthy, `{}` otherwise. -/
def locsBase (e : JsValue) : JsValue :=
  match e.jsGet "localizations" with
  | some l => if l.jsTruthy then l else .obj []
  | none => .obj []

/-- The body of the `if (!localizations[language]) ... else if
(!localizations[language].stringUnit) ...` fixup (page.tsx:50-59) on an
assignable `localizations` value: replace a falsy or absent localization by
the default one, fill in a falsy or absent `stringUnit`, leave a truthy one
alone.  `none` is the `TypeError` of assigning `stringUnit` on a truthy
primitive localization. -/
def canonLocs (language : String) (locs : JsValue) : Option JsValue :=
  match locs.jsGet language with
  | some lv =>
      if lv.jsTruthy then
        match lv.jsGet "stringUnit" with
        | some su =>
            if su.jsTruthy then some locs
            else if lv.jsAssignable then
              some (locs.jsSet language (lv.jsSet "stringUnit" defaultStringUnit))
            else none
        | none =>
            if lv.jsAssignable then
              some (locs.jsSet language (lv.jsSet "stringUnit" defaultStringUnit))
            else none
      else some (locs.jsSet language defaultLocalization)
  | none => some (locs.jsSet language defaultLocalization)

/-- One iteration of the `ensureLanguagePresent` loop (page.tsx:47-60) on the
value of one key of `strings`, written as a pure transformation of the entry
value (the JavaScript loop mutates the entry in place; the pure version
returns the entry's final value, written back along the access path).
`none` models the strict-mode `TypeError` thrown when the loop assigns to a
property of a truthy primitive: a truthy primitive entry at
`entry.localizations = ...`, a truthy primitive `localizations` at one of the
two later assignments (a character of a primitive string never has a truthy
`stringUnit`, so one of them always throws), or a truthy primitive
localization at the `stringUnit` assignment. -/
def canonEntry (language : String) (e0 : JsValue) : Option JsValue :=
  let e := entryBase e0
  if e.jsAssignable then
    let locs := locsBase e
    if locs.jsAssignable then
      (canonLocs language locs).map (fun locs' => e.jsSet "localizations" locs')
    else none
  else none

/-- Left-to-right traversal of a list with a fallible function, stopping at
the first failure (the loop's first thrown `TypeError`). -/
def mapOpt (f : α → Option β) : List α → Option (List β)
  | [] => some []
  | x :: xs => (f x).bind fun y => (mapOpt f xs).map fun ys => y :: ys

/-- `canonEntry` over a field list, left to right, stopping at the first
`TypeError` as the loop does. -/
def canonFields (language : String) (fs : List (String × JsValue)) :
    Option (List (String × JsValue)) :=
  mapOpt (fun kv => (canonEntry language kv.2).map (fun v' => (kv.1, v'))) fs

/-- The `ensureLanguagePresent` loop over the whole `strings` value.  The
loop runs over `Object.keys(data.strings || {})` and writes each entry back:
an object maps each field's value through `canonEntry`; an array maps its
elements (its index keys) and then its expando properties; falsy values and
key-less primitives (`null`, `""`, numbers, booleans) have no keys, so the
loop leaves them untouched; a non-empty string primitive has index keys and
the first write to one of them throws `TypeError` (`none`).  Keys of a
JavaScript object are unique, so the per-key loop with write-back is the
per-field map. -/
def canonStrings (language : String) : JsValue → Option JsValue
  | .obj fs => (canonFields language fs).map .obj
  | .arr elems props =>
      (mapOpt (canonEntry language) elems).bind (fun elems' =>
        (canonFields language props).map (fun props' => .arr elems' props'))
  | .str s => if s = "" then some (.str "") else none
  | v => some v

/-- `ensureLanguagePresent(data, language)` (page.tsx:46-61) as a pure
function: `none` models a thrown `TypeError` (reading `data.strings` on
`null`, or one of the loop's primitive-target assignments).  When `strings`
is absent the loop body never runs (`Object.keys(undefined || {})` is empty);
otherwise the mutated `strings` value is written back, which is the pure
reading of the in-place mutation. -/
def ensureLanguagePresent (data : JsValue) (language : String) : Option JsValue :=
  if data = .null then none
  else
    match data.jsGet "strings" with
    | none => some data
    | some S => (canonStrings language S).map (fun S' => data.jsSet "strings" S')

/-! ## Source definitions: language discovery (`getAllLanguages`, `languages`) -/

/-- One UTF-16 code unit sequence of a string, the order `Array.sort`'s
default comparator uses. -/
def utf16Units (s : String) : List Nat :=
  s.data.foldr
    (fun c acc =>
      (if c.toNat < 0x10000 then [c.toNat]
       else [0xD800 + (c.toNat - 0x10000) / 0x400, 0xDC00 + (c.toNat - 0x10000) % 0x400]) ++ acc)
    []

/-- Lexicographic `≤` on code-unit sequences. -/
def unitsLe : List Nat → List Nat → Bool
  | [], _ => true
  | _ :: _, [] => false
  | a :: as, b :: bs => if a < b then true else if a = b then unitsLe as bs else false

/-- The default `Array.sort` order on strings: lexicographic comparison of
UTF-16 code units. -/
def jsStrLe (a b : String) : Prop := unitsLe (utf16Units a) (utf16Units b) = true

instance : DecidableRel jsStrLe := fun a b => by unfold jsStrLe; infer_instance

/-- `Set.prototype.add`: append if not already present (a JavaScript `Set`
iterates in insertion order). -/
def setAdd (acc : List String) (x : String) : List String :=
  if x ∈ acc then acc else acc ++ [x]

/-- `data.strings[key]?.localizations || {}` for one key (page.tsx:38): the
optional chain turns a `null`/`undefined` entry into `undefined`, and `|| {}`
replaces any falsy result by `{}`. -/
def locsOfEntry (S : JsValue) (k : String) : JsValue :=
  match S.jsGet k with
  | some e =>
      match e.jsGet "localizations" with
      | some l => if l.jsTruthy then l else .obj []
      | none => .obj []
  | none => .obj []

/-- The unsorted language collection of `getAllLanguages` (page.tsx:36-42):
every key of every entry's `localizations`, first occurrence kept, insertion
order. -/
def collectLangs (data : JsValue) : List String :=
  let S := (data.jsGet "strings").getD .null
  (S.jsKeys).foldl (fun acc k => ((locsOfEntry S k).jsKeys).foldl setAdd acc) []

/-- `getAllLanguages` (page.tsx:35-44): the collected languages sorted with
`Array.sort`'s default comparator. -/
def getAllLanguages (data : JsValue) : List String :=
  List.insertionSort jsStrLe (collectLangs data)

/-- The `languages` memo (page.tsx:84-91): `[]` without a document, otherwise
`getAllLanguages` with `"pl"` appended at the end when it is not a member. -/
def languagesOf (data : Option JsValue) : List String :=
  match data with
  | none => []
  | some d =>
      let langs := getAllLanguages d
      if "pl" ∈ langs then langs else langs ++ ["pl"]

/-! ## Source definitions: parser/validator pipeline -/

/-- The error classification of the text→model pipeline: `syntaxError` is a
`JSON.parse` failure, `schemaError` the explicit
`"Missing or invalid 'strings' property"` throw, `typeError` a strict-mode
`TypeError` escaping `ensureLanguagePresent`.  All three are caught by the
same `catch` and surfaced as a message. -/
inductive ParseError : Type where
  | syntaxError : ParseError
  | schemaError : ParseError
  | typeError : ParseError
  deriving DecidableEq

/-- The validation of `scheduleCodeToDataParse` (page.tsx:148-154):
`!parsed || typeof parsed !== "object" || typeof parsed.strings !== "object"`
throws the schema error.  `typeof` classifies `null` and arrays as
`"object"`, so a `null` or array `strings` passes. -/
def validateXc (v : JsValue) : Bool :=
  v.jsTruthy && v.typeofObject &&
    (match v.jsGet "strings" with
     | some s => s.typeofObject
     | none => false)

/-- The debounced text→model pipeline body (page.tsx:146-164) on a text,
the text given by its `JSON.parse` image (`none` = not well-formed JSON):
parse, validate, `deepClone`, `ensureLanguagePresent`, classified errors. -/
def parsePipeline (t : Option JsValue) : Except ParseError JsValue :=
  match t with
  | none => .error .syntaxError
  | some v =>
      if validateXc v then
        match ensureLanguagePresent (stripArrProps v) "pl" with
        | some w => .ok w
        | none => .error .typeError
      else .error .schemaError

/-- Whether the top-level `strings` field holds a mapping (a JSON object) —
the spec-side notion of a valid `strings` field, for comparison with
`validateXc`. -/
def isMappingStrings (v : JsValue) : Bool :=
  match v.jsGet "strings" with
  | some (.obj _) => true
  | _ => false

/-! ## Source definitions: edit merge (`handleCellChange`) -/

/-- `handleCellChange(keyName, lang, value)` (page.tsx:178-197) as a pure
transformation of the current document: `deepClone`, ensure entry /
localizations / localization / stringUnit with the `|| default` pattern, set
`value`, apply the state rule (only an absent, falsy or `"needsLocalization"`
state is rewritten), then `ensureLanguagePresent`.  `none` models a
strict-mode `TypeError` (indexing an absent or `null` `strings`, or
assigning a property of a primitive), in which case `setData` is never
reached and the previous document stays.  As in the source, each `|| {}` /
`|| default` keeps a truthy value and replaces a falsy one, and the final
value of each mutated object is written back along the access path. -/
def handleCellChange (data : JsValue) (keyName lang value : String) : Option JsValue :=
  let nd := stripArrProps data
  match nd.jsGet "strings" with
  | none => none
  | some S =>
      if S.jsAssignable then
        let e :=
          match S.jsGet keyName with
          | some e0 => if e0.jsTruthy then e0 else .obj []
          | none => .obj []
        if e.jsAssignable then
          let locs :=
            match e.jsGet "localizations" with
            | some l => if l.jsTruthy then l else .obj []
            | none => .obj []
          if locs.jsAssignable then
            let loc :=
              match locs.jsGet lang with
              | some l0 => if l0.jsTruthy then l0 else defaultLocalization
              | none => defaultLocalization
            if loc.jsAssignable then
              let su :=
                match loc.jsGet "stringUnit" with
                | some u => if u.jsTruthy then u else defaultStringUnit
                | none => defaultStringUnit
              if su.jsAssignable then
                let su1 := su.jsSet "value" (.str value)
                let stateIsReset : Bool :=
                  match su1.jsGet "state" with
                  | some stv => !stv.jsTruthy || decide (stv = .str "needsLocalization")
                  | none => true
                let su2 :=
                  if stateIsReset then
                    su1.jsSet "state"
                      (.str (if value = "" then "needsLocalization" else "translated"))
                  else su1
                let nd2 :=
                  nd.jsSet "strings"
                    (S.jsSet keyName
                      (e.jsSet "localizations" (locs.jsSet lang (loc.jsSet "stringUnit" su2))))
                ensureLanguagePresent nd2 "pl"
              else none
            else none
          else none
        else none
      else none

/-! ## Source definitions: controller state and one-shot operations -/

/-- The slice of the page state the claims are about: the text buffer (as its
`JSON.parse` image), the current document (`none` = absent), the surfaced
parse error, and the pagination page. -/
structure AppState where
  code : Option JsValue
  data : Option JsValue
  parseError : Option ParseError
  page : Nat
  deriving DecidableEq

/-- The body of the `scheduleCodeToDataParse` timer (page.tsx:145-164) once
it fires with the scheduled text `nextCode`: on success replace the document,
reset the page and clear the error; on any failure surface the error and set
the document to `null`. -/
def fireCodeToDataParse (s : AppState) (nextCode : Option JsValue) : AppState :=
  match parsePipeline nextCode with
  | .ok w => { s with data := some w, page := 0, parseError := none }
  | .error e => { s with parseError := some e, data := none }

/-- `handleCodeChange` (page.tsx:199-203) followed by the undisturbed firing
of the debounce timer it scheduled: the text buffer holds the new text and
the pipeline body runs on it. -/
def textEditFire (s : AppState) (next : Option JsValue) : AppState :=
  fireCodeToDataParse { s with code := next } next

/-- `handleImportChange` (page.tsx:209-235) on a file's text: the same
parse/validate/clone/canonicalize pipeline, run synchronously; on success it
also rewrites the text buffer to the serialized canonical document; on
failure only the error message is set. -/
def handleImportChange (s : AppState) (fileText : Option JsValue) : AppState :=
  match parsePipeline fileText with
  | .ok w =>
      { s with data := some w, code := some (stripArrProps w), page := 0, parseError := none }
  | .error _e => { s with parseError := some _e }

/-- The failure of `handleDownload` (page.tsx:266-268): the `alert` replacing
a produced file. -/
inductive ExportError : Type where
  | cannotExport : ExportError
  deriving DecidableEq

/-- `handleDownload` (page.tsx:237-269): export the current document if one
exists (cloned, then printed — the artifact's value); otherwise best-effort
parse of the raw text buffer through the same validation and
canonicalization; any failure ends in the `alert`. -/
def handleDownload (s : AppState) : Except ExportError JsValue :=
  match s.data with
  | some d => .ok (stripArrProps d)
  | none =>
      match parsePipeline s.code with
      | .ok w => .ok (stripArrProps w)
      | .error _ => .error .cannotExport

/-! ## Source definitions: derived views (keys, filter, pagination) -/

/-- The `keys` memo (page.tsx:271-275): `Object.keys(data.strings || {})`,
`[]` without a document. -/
def keysOf (data : Option JsValue) : List String :=
  match data with
  | none => []
  | some d => ((d.jsGet "strings").getD .null).jsKeys

/-- Whether `sub` is a prefix of `s` (character lists). -/
def isPrefixB : List Char → List Char → Bool
  | [], _ => true
  | _ :: _, [] => false
  | a :: as, b :: bs => a = b && isPrefixB as bs

/-- Whether `sub` occurs contiguously in `s` (character lists). -/
def isInfixB : List Char → List Char → Bool
  | sub, [] => isPrefixB sub []
  | sub, c :: rest => isPrefixB sub (c :: rest) || isInfixB sub rest

/-- `String.prototype.includes`: contiguous substring containment. -/
def jsIncludes (s sub : String) : Bool := isInfixB sub.data s.data

/-- `String.prototype.toLowerCase`, modelled on its ASCII case folding
(`Char.toLower`); non-ASCII folding is outside the model. -/
def jsToLower (s : String) : String := String.mk (s.data.map Char.toLower)

/-- `String.prototype.trim`, modelled on the common whitespace characters
(`Char.isWhitespace`: space, tab, carriage return, newline). -/
def jsTrim (s : String) : String :=
  String.mk (((s.data.dropWhile Char.isWhitespace).reverse.dropWhile Char.isWhitespace).reverse)

/-- The `filteredKeys` memo (page.tsx:277-281): trim and lower-case the
filter; an empty trimmed filter returns the keys unchanged, otherwise keep
the keys whose lower-cased form contains it. -/
def filteredKeysOf (keyFilter : String) (keys : List String) : List String :=
  let q := jsToLower (jsTrim keyFilter)
  if q = "" then keys else keys.filter (fun k => jsIncludes (jsToLower k) q)

/-- `totalPages` (page.tsx:297): `Math.max(1, Math.ceil(totalKeys / pageSize))`. -/
def totalPages (totalKeys pageSize : Nat) : Nat :=
  max 1 ((totalKeys + pageSize - 1) / pageSize)

/-- `currentPage` (page.tsx:298): the requested page clamped to the last
existing one. -/
def currentPageOf (page totalKeys pageSize : Nat) : Nat :=
  min page (totalPages totalKeys pageSize - 1)

/-- The `paginatedKeys` memo (page.tsx:299-303):
`filteredKeys.slice(start, start + pageSize)`. -/
def paginatedKeys (page pageSize : Nat) (filtered : List String) : List String :=
  (filtered.drop (currentPageOf page filtered.length pageSize * pageSize)).take pageSize

/-! ## Invariant and path helpers -/

/-- The string unit reached inside one entry by
`entry.localizations[l].stringUnit` through plain property reads. -/
def entryUnit (e : JsValue) (l : String) : Option JsValue :=
  (e.jsGet "localizations").bind fun locs =>
    (locs.jsGet l).bind fun loc => loc.jsGet "stringUnit"

/-- The string unit reached by
`d.strings[k].localizations[l].stringUnit` through plain property reads. -/
def unitOf (d : JsValue) (k l : String) : Option JsValue :=
  (d.jsGet "strings").bind fun S =>
    (S.jsGet k).bind fun e => entryUnit e l

/-- The `state` field of the string unit at `(k, l)`. -/
def unitStateOf (d : JsValue) (k l : String) : Option JsValue :=
  (unitOf d k l).bind (fun su => su.jsGet "state")

/-- The `value` field of the string unit at `(k, l)`. -/
def unitValueOf (d : JsValue) (k l : String) : Option JsValue :=
  (unitOf d k l).bind (fun su => su.jsGet "value")

/-- The entry values of a `strings` value, as the canonicalizer's loop
visits them: field values of an object, elements then expando property
values of an array, the characters of a string primitive, nothing for other
primitives. -/
def JsValue.jsEntries : JsValue → List JsValue
  | .obj fs => fs.map Prod.snd
  | .arr elems props => elems ++ props.map Prod.snd
  | .str s => s.data.map (fun c => .str (String.mk [c]))
  | _ => []

/-- The entry values of a document's `strings` mapping. -/
def docEntries (d : JsValue) : List JsValue := ((d.jsGet "strings").getD .null).jsEntries

/-- Invariant I1 for one entry: `localizations["pl"]` exists and carries a
truthy (hence present) `stringUnit`. -/
def entryHasPl (e : JsValue) : Bool :=
  match e.jsGet "localizations" with
  | some locs =>
      match locs.jsGet "pl" with
      | some lv =>
          match lv.jsGet "stringUnit" with
          | some su => su.jsTruthy
          | none => false
      | none => false
  | none => false

/-- Invariant I1 for a document: it is an actual value (not `null`) and every
entry of its `strings` mapping satisfies `entryHasPl`. -/
def satisfiesI1 (d : JsValue) : Bool :=
  decide (d ≠ .null) && (docEntries d).all entryHasPl

instance {ε α : Type} [DecidableEq ε] [DecidableEq α] : DecidableEq (Except ε α) := fun a b =>
  match a, b with
  | .ok x, .ok y =>
      if h : x = y then isTrue (by rw [h]) else
        isFalse (by intro hc; injection hc; contradiction)
  | .ok _, .error _ => isFalse (by intro h; exact Except.noConfusion h)
  | .error _, .ok _ => isFalse (by intro h; exact Except.noConfusion h)
  | .error x, .error y =>
      if h : x = y then isTrue (by rw [h]) else
        isFalse (by intro hc; injection hc; contradiction)

/-! ## Concrete documents and states used by the claims -/

/-- The sample document of spec Scenario B. -/
def sampleDoc : JsValue :=
  .obj [("sourceLanguage", .str "en"),
        ("strings", .obj [("Hello", .obj [("localizations", .obj [("en", .obj [("stringUnit",
           .obj [("state", .str "translated"), ("value", .str "Hello")])])])])])]

/-- `sampleDoc` after canonicalization: the `"pl"` localization has been
added with the default string unit. -/
def sampleDocCanon : JsValue :=
  .obj [("sourceLanguage", .str "en"),
        ("strings", .obj [("Hello", .obj [("localizations", .obj [("en", .obj [("stringUnit",
           .obj [("state", .str "translated"), ("value", .str "Hello")])]),
           ("pl", defaultLocalization)])])])]

/-- A document whose `"k"` entry has an `"en"` unit in state `"translated"`. -/
def translatedDoc : JsValue :=
  .obj [("strings", .obj [("k", .obj [("localizations", .obj [("en", .obj [("stringUnit",
     .obj [("state", .str "translated"), ("value", .str "x")])])])])])]

/-- `translatedDoc` after `handleCellChange("k", "en", "y")`: the value is
rewritten, the state is untouched, the `"pl"` localization is added by the
canonicalizer. -/
def translatedDocEdited : JsValue :=
  .obj [("strings", .obj [("k", .obj [("localizations", .obj [("en", .obj [("stringUnit",
     .obj [("state", .str "translated"), ("value", .str "y")])]), ("pl", defaultLocalization)])])])]

/-- A state holding an accepted document in both views. -/
def exampleState : AppState :=
  { code := some sampleDocCanon, data := some sampleDocCanon, parseError := none, page := 0 }

/-- A document whose `strings` field is an array: not a mapping, yet
`typeof [] === "object"` lets it through the validation. -/
def arrayStringsDoc : JsValue := .obj [("strings", .arr [] [])]

/-- A document whose single entry is localized only in `"zh"`. -/
def zhDoc : JsValue :=
  .obj [("strings", .obj [("k", .obj [("localizations", .obj [("zh", .obj [])])])])]

/-- The spec's `discoverLanguages`, modelled from its words: the union of the
occurring language tags together with REQUIRED_LANG, lexicographically
sorted (code-unit order) — to be compared with the source's `languages`
memo. -/
def discoverLanguagesSpec (d : JsValue) : List String :=
  let l := collectLangs d
  List.insertionSort jsStrLe (if "pl" ∈ l then l else l ++ ["pl"])

/-- The text `{"strings": {"k": []}}`. -/
def arrayEntryDoc : JsValue := .obj [("strings", .obj [("k", .arr [] [])])]

/-- Its canonicalized parse: the canonicalizer attached a `localizations`
expando property to the array entry. -/
def arrayEntryDocCanon : JsValue :=
  .obj [("strings", .obj [("k", .arr [] [("localizations", .obj [("pl", defaultLocalization)])])])]

/-- The parser/validator alone (spec 4.1): decode the text and check the
`strings` field, without the canonicalization step — the outer `parse` of
the round-trip formula (the validation of page.tsx:147-154). -/
def parseDoc (t : Option JsValue) : Except ParseError JsValue :=
  match t with
  | none => .error .syntaxError
  | some v => if validateXc v then .ok v else .error .schemaError

/-! ## Lemmas: field lists -/

theorem lookupField_setField_self (fs : List (String × JsValue)) (k : String) (v : JsValue) :
    lookupField (setField fs k v) k = some v := by
  induction fs with
  | nil => simp [setField, lookupField]
  | cons p rest ih =>
      obtain ⟨k', v'⟩ := p
      by_cases h : k' = k
      · simp [setField, h, lookupField]
      · simp [setField, h, lookupField, ih]

theorem lookupField_setField_other (fs : List (String × JsValue)) (k k' : String) (v : JsValue)
    (h : k' ≠ k) : lookupField (setField fs k v) k' = lookupField fs k' := by
  induction fs with
  | nil =>
      simp only [setField, lookupField]
      rw [if_neg (fun hh => h hh.symm)]
  | cons p rest ih =>
      obtain ⟨k0, v0⟩ := p
      by_cases h0 : k0 = k
      · subst h0
        simp only [setField, if_pos rfl, lookupField]
        rw [if_neg (fun hh => h hh.symm), if_neg (fun hh => h hh.symm)]
      · simp only [setField, if_neg h0, lookupField]
        by_cases h1 : k0 = k'
        · simp [h1]
        · simp [h1, ih]

theorem setField_self (fs : List (String × JsValue)) (k : String) (v : JsValue)
    (h : lookupField fs k = some v) : setField fs k v = fs := by
  induction fs with
  | nil => simp [lookupField] at h
  | cons p rest ih =>
      obtain ⟨k0, v0⟩ := p
      by_cases h0 : k0 = k
      · subst h0
        simp only [lookupField, eq_self_iff_true, if_true, Option.some.injEq] at h
        simp [setField, h]
      · simp only [lookupField, if_neg h0] at h
        simp [setField, h0, ih h]

theorem keys_setField (fs : List (String × JsValue)) (k : String) (v : JsValue)
    (h : lookupField fs k = some v') :
    (setField fs k v).map Prod.fst = fs.map Prod.fst := by
  induction fs with
  | nil => simp [lookupField] at h
  | cons p rest ih =>
      obtain ⟨k0, v0⟩ := p
      by_cases h0 : k0 = k
      · simp [setField, h0]
      · simp only [lookupField, if_neg h0] at h
        simp [setField, h0, ih h]

/-! ## Lemmas: `jsGet` / `jsSet` -/

theorem toIndex_toString {s : String} {n : Nat} (h : toIndex s = some n) : natToString n = s := by
  unfold toIndex at h
  cases h0 : charsToNat? s.data with
  | none => rw [h0] at h; exact absurd h (by simp)
  | some m =>
      rw [h0] at h
      by_cases h1 : natToString m = s
      · simp [h1] at h
        exact h ▸ h1
      · simp [h1] at h

namespace JsValue

theorem jsGet_jsSet_self (x : JsValue) (k : String) (v : JsValue)
    (hx : x.jsAssignable = true) : (x.jsSet k v).jsGet k = some v := by
  cases x with
  | obj fs => simp [jsSet, jsGet, lookupField_setField_self]
  | arr elems props =>
      cases hidx : toIndex k with
      | none => simp [jsSet, jsGet, hidx, lookupField_setField_self]
      | some i =>
          by_cases hlen : i < elems.length
          · have hl : i < (elems.set i v).length := by simpa using hlen
            simp [jsSet, jsGet, hidx, hlen, hl, List.getElem_set_self]
          · simp [jsSet, jsGet, hidx, hlen, lookupField_setField_self]
  | null => simp [jsAssignable] at hx
  | bool b => simp [jsAssignable] at hx
  | num n => simp [jsAssignable] at hx
  | str s => simp [jsAssignable] at hx

theorem jsGet_jsSet_other (x : JsValue) (k k' : String) (v : JsValue)
    (h : k' ≠ k) : (x.jsSet k v).jsGet k' = x.jsGet k' := by
  cases x with
  | obj fs => simp [jsSet, jsGet, lookupField_setField_other _ _ _ _ h]
  | arr elems props =>
      simp only [jsSet]
      cases hidx : toIndex k with
      | none =>
          simp only [jsGet]
          cases hidx' : toIndex k' with
          | none => simp [lookupField_setField_other _ _ _ _ h]
          | some j => by_cases hj : j < elems.length <;>
              simp [hj, lookupField_setField_other _ _ _ _ h]
      | some i =>
          by_cases hlen : i < elems.length
          · simp only [if_pos hlen, jsGet]
            cases hidx' : toIndex k' with
            | none => simp
            | some j =>
                have hij : i ≠ j := by
                  intro hij
                  exact h ((toIndex_toString hidx').symm.trans (hij ▸ toIndex_toString hidx))
                by_cases hj : j < elems.length
                · have hj' : j < (elems.set i v).length := by simpa using hj
                  simp [hj, hj', List.getElem_set_ne hij]
                · have hj' : ¬ j < (elems.set i v).length := by simpa using hj
                  simp [hj, hj']
          · simp only [if_neg hlen, jsGet]
            cases hidx' : toIndex k' with
            | none => simp [lookupField_setField_other _ _ _ _ h]
            | some j => by_cases hj : j < elems.length <;>
                simp [hj, lookupField_setField_other _ _ _ _ h]
  | null => rfl
  | bool b => rfl
  | num n => rfl
  | str s => rfl

theorem list_set_getElem_self {α : Type} (l : List α) (i : Nat) (h : i < l.length) :
    l.set i l[i] = l := by
  induction l generalizing i with
  | nil => simp at h
  | cons x xs ih =>
      cases i with
      | zero => simp
      | succ n =>
          simp only [List.set, List.getElem_cons_succ]
          rw [ih]

theorem jsSet_self (x : JsValue) (k : String) (v : JsValue)
    (h : x.jsGet k = some v) : x.jsSet k v = x := by
  cases x with
  | obj fs =>
      simp only [jsGet] at h
      simp [jsSet, setField_self _ _ _ h]
  | arr elems props =>
      simp only [jsGet] at h
      simp only [jsSet]
      cases hidx : toIndex k with
      | none =>
          rw [hidx] at h
          simp [setField_self _ _ _ h]
      | some i =>
          rw [hidx] at h
          by_cases hlen : i < elems.length
          · simp only [dif_pos hlen, Option.some.injEq] at h
            simp [hlen, ← h, list_set_getElem_self]
          · simp only [dif_neg hlen] at h
            simp [hlen, setField_self _ _ _ h]
  | null => simp [jsGet] at h
  | bool b => simp [jsGet] at h
  | num n => simp [jsGet] at h
  | str s => rfl

theorem jsGet_str_nonIndex (s : String) (k : String) (hk : toIndex k = none) :
    (JsValue.str s).jsGet k = none := by simp [jsGet, hk]

/-- A successful non-index property read forces an object or array receiver. -/
theorem jsGet_field_shape {x y : JsValue} {k : String} (hk : toIndex k = none)
    (h : x.jsGet k = some y) : x.jsAssignable = true := by
  cases x with
  | obj fs => rfl
  | arr elems props => rfl
  | null => simp [jsGet] at h
  | bool b => simp [jsGet] at h
  | num n => simp [jsGet] at h
  | str s => rw [jsGet_str_nonIndex _ _ hk] at h; exact absurd h (by simp)

/-- Objects and arrays are truthy. -/
theorem jsTruthy_of_assignable {x : JsValue} (h : x.jsAssignable = true) :
    x.jsTruthy = true := by
  cases x <;> first | rfl | simp [jsAssignable] at h

/-- `jsSet` never changes the constructor of an assignable value, so the
result is again assignable. -/
theorem jsAssignable_jsSet {x : JsValue} (k : String) (v : JsValue)
    (h : x.jsAssignable = true) : (x.jsSet k v).jsAssignable = true := by
  cases x with
  | obj fs => rfl
  | arr elems props =>
      simp only [jsSet]
      cases toIndex k with
      | none => rfl
      | some i => by_cases hl : i < elems.length <;> simp [hl, jsAssignable]
  | null => simp [jsAssignable] at h
  | bool b => simp [jsAssignable] at h
  | num n => simp [jsAssignable] at h
  | str s => simp [jsAssignable] at h

/-- The receiver of a successful read below a further successful non-index
read is an object or array (a string receiver would have produced a
one-character string, which has no non-index properties). -/
theorem jsGet_chain_shape {S e y : JsValue} {k k2 : String} (hk2 : toIndex k2 = none)
    (h1 : S.jsGet k = some e) (h2 : e.jsGet k2 = some y) : S.jsAssignable = true := by
  cases S with
  | obj fs => rfl
  | arr elems props => rfl
  | null => simp [jsGet] at h1
  | bool b => simp [jsGet] at h1
  | num n => simp [jsGet] at h1
  | str s =>
      simp only [jsGet] at h1
      cases hidx : toIndex k with
      | none => rw [hidx] at h1; exact absurd h1 (by simp)
      | some i =>
          rw [hidx] at h1
          dsimp only at h1
          by_cases hl : i < s.data.length
          · rw [dif_pos hl] at h1
            injection h1 with h1
            rw [← h1, jsGet_str_nonIndex _ _ hk2] at h2
            exact absurd h2 (by simp)
          · rw [dif_neg hl] at h1
            exact absurd h1 (by simp)

end JsValue

/-! ## Lemmas: `mapOpt` -/

theorem mapOpt_cons {α β : Type} (f : α → Option β) (x : α) (xs : List α) :
    mapOpt f (x :: xs) = (f x).bind fun y => (mapOpt f xs).map fun ys => y :: ys := rfl

theorem mapOpt_cons_some {α β : Type} {f : α → Option β} {x : α} {xs : List α}
    {zs : List β} (h : mapOpt f (x :: xs) = some zs) :
    ∃ y ys, f x = some y ∧ mapOpt f xs = some ys ∧ zs = y :: ys := by
  rw [mapOpt_cons] at h
  cases hx : f x with
  | none => rw [hx] at h; exact absurd h (by simp)
  | some y =>
      rw [hx] at h
      cases hxs : mapOpt f xs with
      | none => rw [hxs] at h; exact absurd h (by simp)
      | some ys =>
          rw [hxs] at h
          exact ⟨y, ys, rfl, rfl, (Option.some.inj h).symm⟩

theorem mapOpt_length {α β : Type} {f : α → Option β} :
    ∀ {xs : List α} {ys : List β}, mapOpt f xs = some ys → ys.length = xs.length := by
  intro xs
  induction xs with
  | nil => intro ys h; simp only [mapOpt, Option.some.injEq] at h; simp [← h]
  | cons x xs ih =>
      intro ys h
      obtain ⟨y, ys', _, hxs, rfl⟩ := mapOpt_cons_some h
      simp [ih hxs]

theorem mapOpt_getElem {α β : Type} {f : α → Option β} :
    ∀ {xs : List α} {ys : List β}, mapOpt f xs = some ys →
      ∀ (i : Nat) (hx : i < xs.length) (hy : i < ys.length),
        f (xs.get ⟨i, hx⟩) = some (ys.get ⟨i, hy⟩) := by
  intro xs
  induction xs with
  | nil => intro ys h i hx hy; simp at hx
  | cons x xs ih =>
      intro ys h i hx hy
      obtain ⟨y, ys', hfx, hxs, rfl⟩ := mapOpt_cons_some h
      cases i with
      | zero => simpa using hfx
      | succ n =>
          have hx' : n < xs.length := by simpa using hx
          have hy' : n < ys'.length := by simpa using hy
          simpa using ih hxs n hx' hy'

theorem mapOpt_mem {α β : Type} {f : α → Option β} :
    ∀ {xs : List α} {ys : List β}, mapOpt f xs = some ys →
      ∀ {y : β}, y ∈ ys → ∃ x ∈ xs, f x = some y := by
  intro xs
  induction xs with
  | nil =>
      intro ys h y hy
      simp only [mapOpt, Option.some.injEq] at h
      rw [← h] at hy
      simp at hy
  | cons x xs ih =>
      intro ys h y hy
      obtain ⟨y0, ys', hfx, hxs, rfl⟩ := mapOpt_cons_some h
      rcases List.mem_cons.mp hy with h0 | h0
      · exact ⟨x, List.mem_cons_self x xs, h0 ▸ hfx⟩
      · obtain ⟨x', hx', hfx'⟩ := ih hxs h0
        exact ⟨x', List.mem_cons_of_mem x hx', hfx'⟩

theorem mapOpt_self {α : Type} {f : α → Option α} :
    ∀ {xs : List α}, (∀ x ∈ xs, f x = some x) → mapOpt f xs = some xs := by
  intro xs
  induction xs with
  | nil => intro _; rfl
  | cons x xs ih =>
      intro h
      rw [mapOpt_cons, h x (List.mem_cons_self x xs), ih (fun a ha => h a (List.mem_cons_of_mem x ha))]
      rfl

theorem mapOpt_idem {α : Type} {f : α → Option α}
    (hf : ∀ x y, f x = some y → f y = some y) :
    ∀ {xs ys : List α}, mapOpt f xs = some ys → mapOpt f ys = some ys := by
  intro xs ys h
  refine mapOpt_self (fun y hy => ?_)
  obtain ⟨x, _, hfx⟩ := mapOpt_mem h hy
  exact hf x y hfx

/-! ## Lemmas: `ArrFree` and `stripArrProps` -/

mutual
theorem stripArrProps_of_arrFree : ∀ (v : JsValue), ArrFree v → stripArrProps v = v
  | .null, _ => rfl
  | .bool _, _ => rfl
  | .num _, _ => rfl
  | .str _, _ => rfl
  | .arr _ _, h => by unfold ArrFree at h; exact h.elim
  | .obj fs, h => by
      unfold ArrFree at h
      unfold stripArrProps
      rw [stripArrPropsFields_of_arrFree fs h]

theorem stripArrPropsFields_of_arrFree :
    ∀ (fs : List (String × JsValue)), ArrFreeFields fs → stripArrPropsFields fs = fs
  | [], _ => rfl
  | (k, v) :: rest, h => by
      unfold ArrFreeFields at h
      unfold stripArrPropsFields
      rw [stripArrProps_of_arrFree v h.1, stripArrPropsFields_of_arrFree rest h.2]
end

theorem arrFreeFields_lookup {fs : List (String × JsValue)} {k : String} {v : JsValue}
    (hfs : ArrFreeFields fs) (h : lookupField fs k = some v) : ArrFree v := by
  induction fs with
  | nil => simp [lookupField] at h
  | cons p rest ih =>
      obtain ⟨k0, v0⟩ := p
      unfold ArrFreeFields at hfs
      by_cases h0 : k0 = k
      · simp only [lookupField, if_pos h0, Option.some.injEq] at h
        exact h ▸ hfs.1
      · simp only [lookupField, if_neg h0] at h
        exact ih hfs.2 h

theorem arrFree_jsGet {x y : JsValue} {k : String} (hx : ArrFree x)
    (h : x.jsGet k = some y) : ArrFree y := by
  cases x with
  | obj fs =>
      unfold ArrFree at hx
      exact arrFreeFields_lookup hx h
  | arr elems props => unfold ArrFree at hx; exact hx.elim
  | null => simp [JsValue.jsGet] at h
  | bool b => simp [JsValue.jsGet] at h
  | num n => simp [JsValue.jsGet] at h
  | str s =>
      simp only [JsValue.jsGet] at h
      cases hidx : toIndex k with
      | none => rw [hidx] at h; exact absurd h (by simp)
      | some i =>
          rw [hidx] at h
          dsimp only at h
          by_cases hl : i < s.data.length
          · rw [dif_pos hl] at h
            injection h with h
            rw [← h]
            unfold ArrFree
            trivial
          · rw [dif_neg hl] at h
            exact absurd h (by simp)

theorem arrFreeFields_setField {fs : List (String × JsValue)} {k : String} {v : JsValue}
    (hfs : ArrFreeFields fs) (hv : ArrFree v) : ArrFreeFields (setField fs k v) := by
  induction fs with
  | nil => unfold setField ArrFreeFields ArrFreeFields; exact ⟨hv, trivial⟩
  | cons p rest ih =>
      obtain ⟨k0, v0⟩ := p
      unfold ArrFreeFields at hfs
      by_cases h0 : k0 = k
      · simp only [setField, if_pos h0]
        unfold ArrFreeFields
        exact ⟨hv, hfs.2⟩
      · simp only [setField, if_neg h0]
        unfold ArrFreeFields
        exact ⟨hfs.1, ih hfs.2⟩

theorem arrFree_jsSet {x v : JsValue} (k : String) (hx : ArrFree x) (hv : ArrFree v) :
    ArrFree (x.jsSet k v) := by
  cases x with
  | obj fs =>
      unfold ArrFree at hx ⊢
      exact arrFreeFields_setField hx hv
  | arr elems props => unfold ArrFree at hx; exact hx.elim
  | null => exact hx
  | bool b => exact hx
  | num n => exact hx
  | str s => exact hx

theorem arrFree_obj_nil : ArrFree (.obj []) := by unfold ArrFree ArrFreeFields; trivial

theorem arrFree_defaultStringUnit : ArrFree defaultStringUnit := by
  unfold defaultStringUnit ArrFree ArrFreeFields ArrFreeFields ArrFreeFields
  refine ⟨?_, ?_, trivial⟩ <;> (unfold ArrFree; trivial)

theorem arrFree_defaultLocalization : ArrFree defaultLocalization := by
  unfold defaultLocalization ArrFree ArrFreeFields ArrFreeFields
  exact ⟨arrFree_defaultStringUnit, trivial⟩

/-! ## Lemmas: the canonicalizer, entry level -/

theorem toIndex_strings : toIndex "strings" = none := by decide

theorem toIndex_localizations : toIndex "localizations" = none := by decide

theorem toIndex_stringUnit : toIndex "stringUnit" = none := by decide

theorem toIndex_state : toIndex "state" = none := by decide

theorem toIndex_value : toIndex "value" = none := by decide

theorem toIndex_pl : toIndex "pl" = none := by decide

theorem jsAssignable_ne_null {x : JsValue} (h : x.jsAssignable = true) : x ≠ .null := by
  intro he
  rw [he] at h
  simp [JsValue.jsAssignable] at h

/-- A localization with a present `stringUnit` property is an object or an
array, hence truthy. -/
theorem shape_of_stringUnit {lv su : JsValue} (h : lv.jsGet "stringUnit" = some su) :
    lv.jsAssignable = true :=
  JsValue.jsGet_field_shape toIndex_stringUnit h

theorem canonLocs_ok {language : String} {locs locs' : JsValue}
    (hA : locs.jsAssignable = true) (h : canonLocs language locs = some locs') :
    locs'.jsAssignable = true ∧
      ∃ lv su, locs'.jsGet language = some lv ∧ lv.jsTruthy = true ∧
        lv.jsGet "stringUnit" = some su ∧ su.jsTruthy = true := by
  unfold canonLocs at h
  cases hlv : locs.jsGet language with
  | none =>
      rw [hlv] at h
      injection h with h
      subst h
      refine ⟨JsValue.jsAssignable_jsSet _ _ hA, defaultLocalization, defaultStringUnit,
        JsValue.jsGet_jsSet_self _ _ _ hA, rfl, rfl, rfl⟩
  | some lv =>
      rw [hlv] at h
      dsimp only at h
      by_cases ht : lv.jsTruthy
      · rw [if_pos ht] at h
        cases hsu : lv.jsGet "stringUnit" with
        | none =>
            rw [hsu] at h
            dsimp only at h
            by_cases hlvA : lv.jsAssignable
            · rw [if_pos hlvA] at h
              injection h with h
              subst h
              refine ⟨JsValue.jsAssignable_jsSet _ _ hA,
                lv.jsSet "stringUnit" defaultStringUnit, defaultStringUnit,
                JsValue.jsGet_jsSet_self _ _ _ hA,
                JsValue.jsTruthy_of_assignable (JsValue.jsAssignable_jsSet _ _ hlvA),
                JsValue.jsGet_jsSet_self _ _ _ hlvA, rfl⟩
            · rw [if_neg hlvA] at h
              exact absurd h (by simp)
        | some su =>
            rw [hsu] at h
            dsimp only at h
            by_cases hst : su.jsTruthy
            · rw [if_pos hst] at h
              injection h with h
              subst h
              exact ⟨hA, lv, su, hlv, ht, hsu, hst⟩
            · rw [if_neg hst] at h
              by_cases hlvA : lv.jsAssignable
              · rw [if_pos hlvA] at h
                injection h with h
                subst h
                refine ⟨JsValue.jsAssignable_jsSet _ _ hA,
                  lv.jsSet "stringUnit" defaultStringUnit, defaultStringUnit,
                  JsValue.jsGet_jsSet_self _ _ _ hA,
                  JsValue.jsTruthy_of_assignable (JsValue.jsAssignable_jsSet _ _ hlvA),
                  JsValue.jsGet_jsSet_self _ _ _ hlvA, rfl⟩
              · rw [if_neg hlvA] at h
                exact absurd h (by simp)
      · rw [if_neg ht] at h
        injection h with h
        subst h
        refine ⟨JsValue.jsAssignable_jsSet _ _ hA, defaultLocalization, defaultStringUnit,
          JsValue.jsGet_jsSet_self _ _ _ hA, rfl, rfl, rfl⟩

theorem canonLocs_other {language l : String} {locs locs' : JsValue}
    (h : canonLocs language locs = some locs') (hl : l ≠ language) :
    locs'.jsGet l = locs.jsGet l := by
  unfold canonLocs at h
  cases hlv : locs.jsGet language with
  | none =>
      rw [hlv] at h
      injection h with h
      rw [← h, JsValue.jsGet_jsSet_other _ _ _ _ hl]
  | some lv =>
      rw [hlv] at h
      dsimp only at h
      by_cases ht : lv.jsTruthy
      · rw [if_pos ht] at h
        cases hsu : lv.jsGet "stringUnit" with
        | none =>
            rw [hsu] at h
            dsimp only at h
            by_cases hlvA : lv.jsAssignable
            · rw [if_pos hlvA] at h
              injection h with h
              rw [← h, JsValue.jsGet_jsSet_other _ _ _ _ hl]
            · rw [if_neg hlvA] at h; exact absurd h (by simp)
        | some su =>
            rw [hsu] at h
            dsimp only at h
            by_cases hst : su.jsTruthy
            · rw [if_pos hst] at h
              injection h with h
              rw [← h]
            · rw [if_neg hst] at h
              by_cases hlvA : lv.jsAssignable
              · rw [if_pos hlvA] at h
                injection h with h
                rw [← h, JsValue.jsGet_jsSet_other _ _ _ _ hl]
              · rw [if_neg hlvA] at h; exact absurd h (by simp)
      · rw [if_neg ht] at h
        injection h with h
        rw [← h, JsValue.jsGet_jsSet_other _ _ _ _ hl]

theorem canonLocs_self {language : String} {locs lv su : JsValue}
    (h1 : locs.jsGet language = some lv) (h2 : lv.jsGet "stringUnit" = some su)
    (h3 : su.jsTruthy = true) : canonLocs language locs = some locs := by
  have hlvA : lv.jsAssignable = true := shape_of_stringUnit h2
  unfold canonLocs
  rw [h1]
  dsimp only
  rw [if_pos (JsValue.jsTruthy_of_assignable hlvA), h2]
  dsimp only
  rw [if_pos h3]

theorem canonLocs_idem {language : String} {locs locs' : JsValue}
    (hA : locs.jsAssignable = true) (h : canonLocs language locs = some locs') :
    canonLocs language locs' = some locs' := by
  obtain ⟨_, lv, su, hg, _, hsu, hst⟩ := canonLocs_ok hA h
  exact canonLocs_self hg hsu hst

theorem entryBase_of_truthy {x : JsValue} (h : x.jsTruthy = true) : entryBase x = x := by
  unfold entryBase
  rw [if_pos h]

theorem locsBase_eq {e locs : JsValue} (h : e.jsGet "localizations" = some locs)
    (ht : locs.jsTruthy = true) : locsBase e = locs := by
  unfold locsBase
  rw [h]
  dsimp only
  rw [if_pos ht]

theorem entryHasPl_intro {e locs lv su : JsValue}
    (h1 : e.jsGet "localizations" = some locs) (h2 : locs.jsGet "pl" = some lv)
    (h3 : lv.jsGet "stringUnit" = some su) (h4 : su.jsTruthy = true) :
    entryHasPl e = true := by
  unfold entryHasPl
  rw [h1]
  dsimp only
  rw [h2]
  dsimp only
  rw [h3]
  dsimp only
  exact h4

theorem entryHasPl_elim {e : JsValue} (h : entryHasPl e = true) :
    ∃ locs lv su, e.jsGet "localizations" = some locs ∧ locs.jsGet "pl" = some lv ∧
      lv.jsGet "stringUnit" = some su ∧ su.jsTruthy = true := by
  unfold entryHasPl at h
  cases h1 : e.jsGet "localizations" with
  | none => rw [h1] at h; exact absurd h (by simp)
  | some locs =>
      rw [h1] at h
      dsimp only at h
      cases h2 : locs.jsGet "pl" with
      | none => rw [h2] at h; exact absurd h (by simp)
      | some lv =>
          rw [h2] at h
          dsimp only at h
          cases h3 : lv.jsGet "stringUnit" with
          | none => rw [h3] at h; exact absurd h (by simp)
          | some su =>
              rw [h3] at h
              dsimp only at h
              exact ⟨locs, lv, su, rfl, h2, h3, h⟩

theorem entryUnit_intro {e locs loc su : JsValue} {l : String}
    (h1 : e.jsGet "localizations" = some locs) (h2 : locs.jsGet l = some loc)
    (h3 : loc.jsGet "stringUnit" = some su) : entryUnit e l = some su := by
  unfold entryUnit
  rw [h1, Option.some_bind, h2, Option.some_bind, h3]

theorem entryUnit_elim {e su : JsValue} {l : String} (h : entryUnit e l = some su) :
    ∃ locs loc, e.jsGet "localizations" = some locs ∧ locs.jsGet l = some loc ∧
      loc.jsGet "stringUnit" = some su := by
  unfold entryUnit at h
  cases h1 : e.jsGet "localizations" with
  | none => rw [h1] at h; exact absurd h (by simp)
  | some locs =>
      rw [h1, Option.some_bind] at h
      cases h2 : locs.jsGet l with
      | none => rw [h2] at h; exact absurd h (by simp)
      | some loc =>
          rw [h2, Option.some_bind] at h
          exact ⟨locs, loc, rfl, h2, h⟩

theorem canonEntry_intro {language : String} {e0 locs' : JsValue}
    (hE : (entryBase e0).jsAssignable = true)
    (hL : (locsBase (entryBase e0)).jsAssignable = true)
    (hcl : canonLocs language (locsBase (entryBase e0)) = some locs') :
    canonEntry language e0 = some ((entryBase e0).jsSet "localizations" locs') := by
  simp only [canonEntry]
  rw [if_pos hE, if_pos hL, hcl, Option.map_some']

theorem canonEntry_eq {language : String} {e0 e' : JsValue}
    (h : canonEntry language e0 = some e') :
    (entryBase e0).jsAssignable = true ∧ (locsBase (entryBase e0)).jsAssignable = true ∧
      ∃ locs', canonLocs language (locsBase (entryBase e0)) = some locs' ∧
        e' = (entryBase e0).jsSet "localizations" locs' := by
  simp only [canonEntry] at h
  by_cases h1 : (entryBase e0).jsAssignable
  · rw [if_pos h1] at h
    by_cases h2 : (locsBase (entryBase e0)).jsAssignable
    · rw [if_pos h2] at h
      cases hcl : canonLocs language (locsBase (entryBase e0)) with
      | none => rw [hcl] at h; exact absurd h (by simp)
      | some locs' =>
          rw [hcl, Option.map_some'] at h
          exact ⟨h1, h2, locs', rfl, (Option.some.inj h).symm⟩
    · rw [if_neg h2] at h; exact absurd h (by simp)
  · rw [if_neg h1] at h
    exact absurd h (by simp)

theorem canonEntry_hasPl {e0 e' : JsValue} (h : canonEntry "pl" e0 = some e') :
    entryHasPl e' = true := by
  obtain ⟨hE, hL, locs', hcl, rfl⟩ := canonEntry_eq h
  obtain ⟨_, lv, su, hg, _, hsu, hst⟩ := canonLocs_ok hL hcl
  exact entryHasPl_intro (JsValue.jsGet_jsSet_self _ _ _ hE) hg hsu hst

theorem canonEntry_idem {language : String} {e0 e' : JsValue}
    (h : canonEntry language e0 = some e') : canonEntry language e' = some e' := by
  obtain ⟨hE, hL, locs', hcl, rfl⟩ := canonEntry_eq h
  have hA' : ((entryBase e0).jsSet "localizations" locs').jsAssignable = true :=
    JsValue.jsAssignable_jsSet _ _ hE
  have hlocs'A : locs'.jsAssignable = true := (canonLocs_ok hL hcl).1
  have hget : ((entryBase e0).jsSet "localizations" locs').jsGet "localizations" = some locs' :=
    JsValue.jsGet_jsSet_self _ _ _ hE
  have hEB : entryBase ((entryBase e0).jsSet "localizations" locs') =
      (entryBase e0).jsSet "localizations" locs' :=
    entryBase_of_truthy (JsValue.jsTruthy_of_assignable hA')
  have hLB : locsBase ((entryBase e0).jsSet "localizations" locs') = locs' :=
    locsBase_eq hget (JsValue.jsTruthy_of_assignable hlocs'A)
  have h1' : (entryBase ((entryBase e0).jsSet "localizations" locs')).jsAssignable = true := by
    rw [hEB]; exact hA'
  have h2' : (locsBase (entryBase ((entryBase e0).jsSet "localizations" locs'))).jsAssignable
      = true := by rw [hEB, hLB]; exact hlocs'A
  have h3' : canonLocs language
      (locsBase (entryBase ((entryBase e0).jsSet "localizations" locs'))) = some locs' := by
    rw [hEB, hLB]; exact canonLocs_idem hL hcl
  rw [canonEntry_intro h1' h2' h3', hEB, JsValue.jsSet_self _ _ _ hget]

theorem canonEntry_self {e : JsValue} (h : entryHasPl e = true) :
    canonEntry "pl" e = some e := by
  obtain ⟨locs, lv, su, h1, h2, h3, h4⟩ := entryHasPl_elim h
  have hE : e.jsAssignable = true := JsValue.jsGet_field_shape toIndex_localizations h1
  have hLA : locs.jsAssignable = true := JsValue.jsGet_field_shape toIndex_pl h2
  have hEB : entryBase e = e := entryBase_of_truthy (JsValue.jsTruthy_of_assignable hE)
  have hLB : locsBase e = locs := locsBase_eq h1 (JsValue.jsTruthy_of_assignable hLA)
  have h1' : (entryBase e).jsAssignable = true := by rw [hEB]; exact hE
  have h2' : (locsBase (entryBase e)).jsAssignable = true := by rw [hEB, hLB]; exact hLA
  have h3' : canonLocs "pl" (locsBase (entryBase e)) = some locs := by
    rw [hEB, hLB]; exact canonLocs_self h2 h3 h4
  rw [canonEntry_intro h1' h2' h3', hEB, JsValue.jsSet_self _ _ _ h1]

theorem canonEntry_preserves_unit {e0 e' su : JsValue} {l : String}
    (h : canonEntry "pl" e0 = some e') (hu : entryUnit e0 l = some su)
    (hsu : su.jsTruthy = true) : entryUnit e' l = some su := by
  obtain ⟨locs, loc, h1, h2, h3⟩ := entryUnit_elim hu
  have hE0 : e0.jsAssignable = true := JsValue.jsGet_field_shape toIndex_localizations h1
  have hLA : locs.jsAssignable = true := JsValue.jsGet_chain_shape toIndex_stringUnit h2 h3
  have hEB : entryBase e0 = e0 := entryBase_of_truthy (JsValue.jsTruthy_of_assignable hE0)
  have hLB : locsBase e0 = locs := locsBase_eq h1 (JsValue.jsTruthy_of_assignable hLA)
  obtain ⟨hE, hL, locs', hcl, rfl⟩ := canonEntry_eq h
  rw [hEB, hLB] at hcl
  rw [hEB]
  have hget : (e0.jsSet "localizations" locs').jsGet "localizations" = some locs' :=
    JsValue.jsGet_jsSet_self _ _ _ hE0
  by_cases hlp : l = "pl"
  · subst hlp
    have hself := canonLocs_self h2 h3 hsu
    rw [hself] at hcl
    have hq : locs' = locs := (Option.some.inj hcl).symm
    subst hq
    exact entryUnit_intro hget h2 h3
  · have hother : locs'.jsGet l = some loc := (canonLocs_other hcl hlp).trans h2
    exact entryUnit_intro hget hother h3

/-! ## Lemmas: the canonicalizer, `strings` level -/

theorem lookupField_mem {fs : List (String × JsValue)} {k : String} {v : JsValue}
    (h : lookupField fs k = some v) : (k, v) ∈ fs := by
  induction fs with
  | nil => simp [lookupField] at h
  | cons p rest ih =>
      obtain ⟨k0, v0⟩ := p
      by_cases h0 : k0 = k
      · subst h0
        simp only [lookupField, eq_self_iff_true, if_true, Option.some.injEq] at h
        rw [← h]
        exact List.mem_cons_self _ _
      · simp only [lookupField, if_neg h0] at h
        exact List.mem_cons_of_mem _ (ih h)

theorem mapOpt_some_of_mem {α β : Type} {f : α → Option β} :
    ∀ {xs : List α} {ys : List β}, mapOpt f xs = some ys →
      ∀ {x : α}, x ∈ xs → ∃ y, f x = some y := by
  intro xs
  induction xs with
  | nil => intro ys h x hx; simp at hx
  | cons a rest ih =>
      intro ys h x hx
      obtain ⟨y, ys', hfa, hrest, rfl⟩ := mapOpt_cons_some h
      rcases List.mem_cons.mp hx with h0 | h0
      · exact ⟨y, h0 ▸ hfa⟩
      · exact ih hrest h0

theorem canonFields_lookup {language : String} {fs fs' : List (String × JsValue)}
    (h : canonFields language fs = some fs') (k : String) :
    lookupField fs' k = (lookupField fs k).bind (canonEntry language) := by
  induction fs generalizing fs' with
  | nil =>
      unfold canonFields mapOpt at h
      injection h with h
      rw [← h]
      rfl
  | cons p rest ih =>
      obtain ⟨k0, v0⟩ := p
      unfold canonFields at h ih
      obtain ⟨y, ys, hfy, hrest, rfl⟩ := mapOpt_cons_some h
      cases hc : canonEntry language v0 with
      | none => rw [hc] at hfy; exact absurd hfy (by simp)
      | some v0' =>
          rw [hc, Option.map_some'] at hfy
          injection hfy with hfy
          rw [← hfy]
          by_cases hk : k0 = k
          · subst hk
            simp [lookupField, hc]
          · simp only [lookupField, if_neg hk]
            exact ih hrest

theorem canonFields_vals_hasPl {fs fs' : List (String × JsValue)}
    (h : canonFields "pl" fs = some fs') {v' : JsValue} (hv : v' ∈ fs'.map Prod.snd) :
    entryHasPl v' = true := by
  rw [List.mem_map] at hv
  obtain ⟨⟨k1, v1⟩, hmem, hsnd⟩ := hv
  unfold canonFields at h
  obtain ⟨⟨k0, v0⟩, _, hf⟩ := mapOpt_mem h hmem
  cases hc : canonEntry "pl" v0 with
  | none => rw [hc] at hf; exact absurd hf (by simp)
  | some w =>
      rw [hc, Option.map_some'] at hf
      injection hf with hf
      have hw : w = v1 := congrArg Prod.snd hf
      have := canonEntry_hasPl hc
      rw [hw] at this
      rw [← hsnd]
      exact this

theorem canonFields_self {language : String} {fs : List (String × JsValue)}
    (hall : ∀ kv ∈ fs, canonEntry language kv.2 = some kv.2) :
    canonFields language fs = some fs := by
  unfold canonFields
  refine mapOpt_self (fun kv hm => ?_)
  rw [hall kv hm, Option.map_some']

theorem canonFields_idem {language : String} {fs fs' : List (String × JsValue)}
    (h : canonFields language fs = some fs') : canonFields language fs' = some fs' := by
  unfold canonFields at h ⊢
  refine mapOpt_idem (fun kv kv' hf => ?_) h
  cases hc : canonEntry language kv.2 with
  | none => rw [hc] at hf; exact absurd hf (by simp)
  | some w =>
      rw [hc, Option.map_some'] at hf
      injection hf with hf
      have h2 : kv'.2 = w := by rw [← hf]
      rw [h2, canonEntry_idem hc, Option.map_some']
      rw [← hf]

theorem canonStrings_typeof {language : String} {S S' : JsValue}
    (h : canonStrings language S = some S') : S'.typeofObject = S.typeofObject := by
  cases S with
  | obj fs =>
      unfold canonStrings at h
      dsimp only at h
      cases hcf : canonFields language fs with
      | none => rw [hcf] at h; exact absurd h (by simp)
      | some fs' =>
          rw [hcf, Option.map_some'] at h
          rw [← Option.some.inj h]
          rfl
  | arr elems props =>
      unfold canonStrings at h
      dsimp only at h
      cases hme : mapOpt (canonEntry language) elems with
      | none => rw [hme] at h; exact absurd h (by simp)
      | some elems' =>
          rw [hme, Option.some_bind] at h
          cases hcf : canonFields language props with
          | none => rw [hcf] at h; exact absurd h (by simp)
          | some props' =>
              rw [hcf, Option.map_some'] at h
              rw [← Option.some.inj h]
              rfl
  | str s =>
      unfold canonStrings at h
      dsimp only at h
      by_cases hs : s = ""
      · rw [if_pos hs] at h
        rw [← Option.some.inj h, hs]
      · rw [if_neg hs] at h; exact absurd h (by simp)
  | null => rw [← Option.some.inj h]
  | bool b => rw [← Option.some.inj h]
  | num n => rw [← Option.some.inj h]

theorem canonStrings_get {language : String} {S S' e : JsValue} {k : String}
    (h : canonStrings language S = some S') (hS : S.jsAssignable = true)
    (hk : S.jsGet k = some e) :
    ∃ e', canonEntry language e = some e' ∧ S'.jsGet k = some e' := by
  cases S with
  | obj fs =>
      unfold canonStrings at h
      dsimp only at h
      cases hcf : canonFields language fs with
      | none => rw [hcf] at h; exact absurd h (by simp)
      | some fs' =>
          rw [hcf, Option.map_some'] at h
          obtain rfl : JsValue.obj fs' = S' := Option.some.inj h
          have hlk := canonFields_lookup hcf k
          simp only [JsValue.jsGet] at hk ⊢
          rw [hlk, hk, Option.some_bind]
          have hmem := lookupField_mem hk
          unfold canonFields at hcf
          obtain ⟨y, hy⟩ := mapOpt_some_of_mem hcf hmem
          cases hc : canonEntry language e with
          | none => rw [hc] at hy; exact absurd hy (by simp)
          | some e' => exact ⟨e', rfl, rfl⟩
  | arr elems props =>
      unfold canonStrings at h
      dsimp only at h
      cases hme : mapOpt (canonEntry language) elems with
      | none => rw [hme] at h; exact absurd h (by simp)
      | some elems' =>
          rw [hme, Option.some_bind] at h
          cases hcf : canonFields language props with
          | none => rw [hcf] at h; exact absurd h (by simp)
          | some props' =>
              rw [hcf, Option.map_some'] at h
              obtain rfl : JsValue.arr elems' props' = S' := Option.some.inj h
              have hlen := mapOpt_length hme
              simp only [JsValue.jsGet] at hk ⊢
              cases hidx : toIndex k with
              | some i =>
                  rw [hidx] at hk
                  dsimp only at hk ⊢
                  by_cases hl : i < elems.length
                  · have hl' : i < elems'.length := by rw [hlen]; exact hl
                    rw [dif_pos hl] at hk
                    have := mapOpt_getElem hme i hl hl'
                    rw [dif_pos hl']
                    refine ⟨elems'.get ⟨i, hl'⟩, ?_, rfl⟩
                    rw [Option.some.inj hk] at this
                    exact this
                  · have hl' : ¬ i < elems'.length := by rw [hlen]; exact hl
                    rw [dif_neg hl] at hk
                    rw [dif_neg hl']
                    have hlk := canonFields_lookup hcf k
                    rw [hlk, hk, Option.some_bind]
                    have hmem := lookupField_mem hk
                    unfold canonFields at hcf
                    obtain ⟨y, hy⟩ := mapOpt_some_of_mem hcf hmem
                    cases hc : canonEntry language e with
                    | none => rw [hc] at hy; exact absurd hy (by simp)
                    | some e' => exact ⟨e', rfl, rfl⟩
              | none =>
                  rw [hidx] at hk
                  dsimp only at hk ⊢
                  have hlk := canonFields_lookup hcf k
                  rw [hlk, hk, Option.some_bind]
                  have hmem := lookupField_mem hk
                  unfold canonFields at hcf
                  obtain ⟨y, hy⟩ := mapOpt_some_of_mem hcf hmem
                  cases hc : canonEntry language e with
                  | none => rw [hc] at hy; exact absurd hy (by simp)
                  | some e' => exact ⟨e', rfl, rfl⟩
  | str s => simp [JsValue.jsAssignable] at hS
  | null => simp [JsValue.jsGet] at hk
  | bool b => simp [JsValue.jsGet] at hk
  | num n => simp [JsValue.jsGet] at hk

theorem canonStrings_entries_hasPl {S S' : JsValue} (h : canonStrings "pl" S = some S') :
    ∀ e' ∈ S'.jsEntries, entryHasPl e' = true := by
  cases S with
  | obj fs =>
      unfold canonStrings at h
      dsimp only at h
      cases hcf : canonFields "pl" fs with
      | none => rw [hcf] at h; exact absurd h (by simp)
      | some fs' =>
          rw [hcf, Option.map_some'] at h
          obtain rfl : JsValue.obj fs' = S' := Option.some.inj h
          intro e' he'
          exact canonFields_vals_hasPl hcf he'
  | arr elems props =>
      unfold canonStrings at h
      dsimp only at h
      cases hme : mapOpt (canonEntry "pl") elems with
      | none => rw [hme] at h; exact absurd h (by simp)
      | some elems' =>
          rw [hme, Option.some_bind] at h
          cases hcf : canonFields "pl" props with
          | none => rw [hcf] at h; exact absurd h (by simp)
          | some props' =>
              rw [hcf, Option.map_some'] at h
              obtain rfl : JsValue.arr elems' props' = S' := Option.some.inj h
              intro e' he'
              rcases List.mem_append.mp he' with hm | hm
              · obtain ⟨e0, _, hc⟩ := mapOpt_mem hme hm
                exact canonEntry_hasPl hc
              · exact canonFields_vals_hasPl hcf hm
  | str s =>
      unfold canonStrings at h
      dsimp only at h
      by_cases hs : s = ""
      · rw [if_pos hs] at h
        obtain rfl : JsValue.str "" = S' := Option.some.inj h
        intro e' he'
        have hnil : (JsValue.str "").jsEntries = [] := rfl
        rw [hnil] at he'
        exact absurd he' (List.not_mem_nil e')
      · rw [if_neg hs] at h; exact absurd h (by simp)
  | null =>
      obtain rfl : JsValue.null = S' := Option.some.inj h
      intro e' he'
      exact absurd he' (List.not_mem_nil e')
  | bool b =>
      obtain rfl : JsValue.bool b = S' := Option.some.inj h
      intro e' he'
      exact absurd he' (List.not_mem_nil e')
  | num n =>
      obtain rfl : JsValue.num n = S' := Option.some.inj h
      intro e' he'
      exact absurd he' (List.not_mem_nil e')

theorem entryHasPl_char (c : Char) : entryHasPl (.str (String.mk [c])) = false := by
  unfold entryHasPl
  rw [JsValue.jsGet_str_nonIndex _ _ toIndex_localizations]

theorem canonStrings_self {S : JsValue} (hall : ∀ e ∈ S.jsEntries, entryHasPl e = true) :
    canonStrings "pl" S = some S := by
  cases S with
  | obj fs =>
      unfold canonStrings
      dsimp only
      rw [canonFields_self (fun kv hm => canonEntry_self
        (hall kv.2 (List.mem_map_of_mem Prod.snd hm))), Option.map_some']
  | arr elems props =>
      unfold canonStrings
      dsimp only
      rw [mapOpt_self (fun e hm => canonEntry_self (hall e (List.mem_append_left _ hm))),
        Option.some_bind,
        canonFields_self (fun kv hm => canonEntry_self
          (hall kv.2 (List.mem_append_right _ (List.mem_map_of_mem Prod.snd hm)))),
        Option.map_some']
  | str s =>
      unfold canonStrings
      dsimp only
      by_cases hs : s = ""
      · rw [if_pos hs]
        rw [hs]
      · exfalso
        cases hd : s.data with
        | nil =>
            exact hs (by
              have hsm : s = String.mk s.data := rfl
              rw [hsm, hd])
        | cons c cs =>
            have hm : (JsValue.str (String.mk [c])) ∈ (JsValue.str s).jsEntries := by
              show _ ∈ s.data.map _
              rw [hd]
              exact List.mem_cons_self _ _
            have := hall _ hm
            rw [entryHasPl_char] at this
            exact Bool.false_ne_true this
  | null => rfl
  | bool b => rfl
  | num n => rfl

theorem canonStrings_idem {language : String} {S S' : JsValue}
    (h : canonStrings language S = some S') : canonStrings language S' = some S' := by
  cases S with
  | obj fs =>
      unfold canonStrings at h
      dsimp only at h
      cases hcf : canonFields language fs with
      | none => rw [hcf] at h; exact absurd h (by simp)
      | some fs' =>
          rw [hcf, Option.map_some'] at h
          obtain rfl : JsValue.obj fs' = S' := Option.some.inj h
          unfold canonStrings
          dsimp only
          rw [canonFields_idem hcf, Option.map_some']
  | arr elems props =>
      unfold canonStrings at h
      dsimp only at h
      cases hme : mapOpt (canonEntry language) elems with
      | none => rw [hme] at h; exact absurd h (by simp)
      | some elems' =>
          rw [hme, Option.some_bind] at h
          cases hcf : canonFields language props with
          | none => rw [hcf] at h; exact absurd h (by simp)
          | some props' =>
              rw [hcf, Option.map_some'] at h
              obtain rfl : JsValue.arr elems' props' = S' := Option.some.inj h
              unfold canonStrings
              dsimp only
              rw [mapOpt_idem (fun x y hf => canonEntry_idem hf) hme, Option.some_bind,
                canonFields_idem hcf, Option.map_some']
  | str s =>
      unfold canonStrings at h
      dsimp only at h
      by_cases hs : s = ""
      · rw [if_pos hs] at h
        obtain rfl : JsValue.str "" = S' := Option.some.inj h
        rfl
      · rw [if_neg hs] at h; exact absurd h (by simp)
  | null => obtain rfl : JsValue.null = S' := Option.some.inj h; rfl
  | bool b => obtain rfl : JsValue.bool b = S' := Option.some.inj h; rfl
  | num n => obtain rfl : JsValue.num n = S' := Option.some.inj h; rfl

/-! ## Lemmas: `ensureLanguagePresent` -/

theorem docEntries_eq {d S : JsValue} (h : d.jsGet "strings" = some S) :
    docEntries d = S.jsEntries := by
  unfold docEntries
  rw [h]
  rfl

theorem docEntries_none {d : JsValue} (h : d.jsGet "strings" = none) :
    docEntries d = [] := by
  unfold docEntries
  rw [h]
  rfl

theorem satisfiesI1_iff {d : JsValue} :
    satisfiesI1 d = true ↔ (d ≠ .null ∧ ∀ e ∈ docEntries d, entryHasPl e = true) := by
  unfold satisfiesI1
  simp [List.all_eq_true]

theorem ensure_intro_none {d : JsValue} {language : String} (hn : d ≠ .null)
    (hg : d.jsGet "strings" = none) : ensureLanguagePresent d language = some d := by
  unfold ensureLanguagePresent
  rw [if_neg hn, hg]

theorem ensure_intro_some {d S S' : JsValue} {language : String} (hn : d ≠ .null)
    (hg : d.jsGet "strings" = some S) (hc : canonStrings language S = some S') :
    ensureLanguagePresent d language = some (d.jsSet "strings" S') := by
  unfold ensureLanguagePresent
  rw [if_neg hn, hg]
  dsimp only
  rw [hc, Option.map_some']

theorem ensure_eq_some {d w : JsValue} {language : String}
    (h : ensureLanguagePresent d language = some w) :
    d ≠ .null ∧ ((d.jsGet "strings" = none ∧ w = d) ∨
      ∃ S S', d.jsGet "strings" = some S ∧ canonStrings language S = some S' ∧
        w = d.jsSet "strings" S') := by
  unfold ensureLanguagePresent at h
  by_cases hn : d = .null
  · rw [if_pos hn] at h; exact absurd h (by simp)
  · rw [if_neg hn] at h
    refine ⟨hn, ?_⟩
    cases hg : d.jsGet "strings" with
    | none =>
        rw [hg] at h
        dsimp only at h
        exact Or.inl ⟨rfl, (Option.some.inj h).symm⟩
    | some S =>
        rw [hg] at h
        dsimp only at h
        cases hc : canonStrings language S with
        | none => rw [hc] at h; exact absurd h (by simp)
        | some S' =>
            rw [hc, Option.map_some'] at h
            exact Or.inr ⟨S, S', rfl, hc, (Option.some.inj h).symm⟩

theorem ensure_satisfiesI1 {d w : JsValue} (h : ensureLanguagePresent d "pl" = some w) :
    satisfiesI1 w = true := by
  obtain ⟨hn, hcase⟩ := ensure_eq_some h
  rcases hcase with ⟨hg, rfl⟩ | ⟨S, S', hg, hc, rfl⟩
  · exact satisfiesI1_iff.mpr ⟨hn, by rw [docEntries_none hg]; intro e he; simp at he⟩
  · have hdA : d.jsAssignable = true := JsValue.jsGet_field_shape toIndex_strings hg
    have hwA : (d.jsSet "strings" S').jsAssignable = true := JsValue.jsAssignable_jsSet _ _ hdA
    refine satisfiesI1_iff.mpr ⟨jsAssignable_ne_null hwA, ?_⟩
    rw [docEntries_eq (JsValue.jsGet_jsSet_self _ _ _ hdA)]
    exact canonStrings_entries_hasPl hc

theorem ensure_idem {d w : JsValue} (h : ensureLanguagePresent d "pl" = some w) :
    ensureLanguagePresent w "pl" = some w := by
  obtain ⟨hn, hcase⟩ := ensure_eq_some h
  rcases hcase with ⟨hg, rfl⟩ | ⟨S, S', hg, hc, rfl⟩
  · exact ensure_intro_none hn hg
  · have hdA : d.jsAssignable = true := JsValue.jsGet_field_shape toIndex_strings hg
    have hwA : (d.jsSet "strings" S').jsAssignable = true := JsValue.jsAssignable_jsSet _ _ hdA
    have hget : (d.jsSet "strings" S').jsGet "strings" = some S' :=
      JsValue.jsGet_jsSet_self _ _ _ hdA
    have := ensure_intro_some (jsAssignable_ne_null hwA) hget (canonStrings_idem hc)
    rw [this, JsValue.jsSet_self _ _ _ hget]

theorem ensure_noop {d : JsValue} (h : satisfiesI1 d = true) :
    ensureLanguagePresent d "pl" = some d := by
  obtain ⟨hn, hall⟩ := satisfiesI1_iff.mp h
  cases hg : d.jsGet "strings" with
  | none => exact ensure_intro_none hn hg
  | some S =>
      rw [docEntries_eq hg] at hall
      have := ensure_intro_some hn hg (canonStrings_self hall)
      rw [this, JsValue.jsSet_self _ _ _ hg]

theorem ensure_preserves_unit {d w su : JsValue} {k l : String}
    (h : ensureLanguagePresent d "pl" = some w) (hu : unitOf d k l = some su)
    (hsu : su.jsTruthy = true) : unitOf w k l = some su := by
  obtain ⟨hn, hcase⟩ := ensure_eq_some h
  rcases hcase with ⟨hg', rfl⟩ | ⟨S, S', hg', hc, rfl⟩
  · exact hu
  · unfold unitOf at hu
    rw [hg', Option.some_bind] at hu
    cases hk : S.jsGet k with
    | none => rw [hk] at hu; exact absurd hu (by simp)
    | some e =>
        rw [hk, Option.some_bind] at hu
        obtain ⟨locs, loc, h1, h2, h3⟩ := entryUnit_elim hu
        have hSA : S.jsAssignable = true :=
          JsValue.jsGet_chain_shape toIndex_localizations hk h1
        obtain ⟨e', hce, hge'⟩ := canonStrings_get hc hSA hk
        have hdA : d.jsAssignable = true := JsValue.jsGet_field_shape toIndex_strings hg'
        unfold unitOf
        rw [JsValue.jsGet_jsSet_self _ _ _ hdA, Option.some_bind, hge', Option.some_bind]
        exact canonEntry_preserves_unit hce hu hsu

/-- Every document a success path stores comes out of `ensureLanguagePresent`:
the debounced parse pipeline. -/
theorem parsePipeline_ok_ensure {t : Option JsValue} {w : JsValue}
    (h : parsePipeline t = .ok w) : ∃ v, ensureLanguagePresent v "pl" = some w := by
  unfold parsePipeline at h
  cases t with
  | none => exact absurd h (by simp)
  | some v =>
      dsimp only at h
      by_cases hv : validateXc v
      · rw [if_pos hv] at h
        cases he : ensureLanguagePresent (stripArrProps v) "pl" with
        | none => rw [he] at h; exact absurd h (by simp)
        | some w' =>
            rw [he] at h
            injection h with h
            exact ⟨stripArrProps v, h ▸ he⟩
      · rw [if_neg hv] at h; exact absurd h (by simp)

/-- Every document a cell edit stores comes out of `ensureLanguagePresent`. -/
theorem handleCellChange_ensure {d w : JsValue} {k l v : String} (h : handleCellChange d k l v = some w) :
    ∃ nd2, ensureLanguagePresent nd2 "pl" = some w := by
  simp only [handleCellChange] at h
  split at h
  · exact absurd h (by simp)
  · split at h
    · split at h
      · split at h
        · split at h
          · split at h
            · exact ⟨_, h⟩
            · exact absurd h (by simp)
          · exact absurd h (by simp)
        · exact absurd h (by simp)
      · exact absurd h (by simp)
    · exact absurd h (by simp)

/-- C5: every Document produced by canonicalization — hence every document
stored by a successful initial load, import, debounced parse, or cell edit —
satisfies invariant I1: every entry of its `strings` mapping carries a
`localizations["pl"]` with a non-absent (indeed truthy) `stringUnit`. -/
theorem claim_C5_canonicalization_establishes_I1 :
    (∀ d w : JsValue, ensureLanguagePresent d "pl" = some w → satisfiesI1 w = true) ∧
    (∀ (t : Option JsValue) (w : JsValue), parsePipeline t = .ok w → satisfiesI1 w = true) ∧
    (∀ (d w : JsValue) (k l v : String), handleCellChange d k l v = some w → satisfiesI1 w = true) := by
  refine ⟨fun d w h => ensure_satisfiesI1 h, fun t w h => ?_, fun d w k l v h => ?_⟩
  · obtain ⟨v0, hv0⟩ := parsePipeline_ok_ensure h
    exact ensure_satisfiesI1 hv0
  · obtain ⟨nd2, hnd2⟩ := handleCellChange_ensure h
    exact ensure_satisfiesI1 hnd2

/-- Witness for C5 at the Scenario B document: canonicalizing `sampleDoc`
succeeds and the result satisfies I1. -/
theorem claim_C5_witness : satisfiesI1 sampleDocCanon = true :=
  claim_C5_canonicalization_establishes_I1.1 sampleDoc sampleDocCanon (by decide)

/-- C7: canonicalization is idempotent, a no-op on any document already
satisfying invariant I1, and never overwrites an existing (truthy)
StringUnit — the unit reachable at any key and language before
canonicalization is still reachable, unchanged, afterwards. -/
theorem claim_C7_canonicalization_idempotent :
    ∀ d : JsValue,
      ((ensureLanguagePresent d "pl").bind (fun w => ensureLanguagePresent w "pl") =
        ensureLanguagePresent d "pl") ∧
      (satisfiesI1 d = true → ensureLanguagePresent d "pl" = some d) ∧
      (∀ (w su : JsValue) (k l : String), ensureLanguagePresent d "pl" = some w →
        unitOf d k l = some su → su.jsTruthy = true → unitOf w k l = some su) := by
  intro d
  refine ⟨?_, fun h => ensure_noop h, fun w su k l hw hu hsu => ensure_preserves_unit hw hu hsu⟩
  cases hE : ensureLanguagePresent d "pl" with
  | none => rfl
  | some w => rw [Option.some_bind]; exact ensure_idem hE

/-- Witness for C7 at the canonical Scenario B document: it satisfies I1,
canonicalization leaves it untouched, and the existing translated `"en"`
unit is preserved. -/
theorem claim_C7_witness :
    ensureLanguagePresent sampleDocCanon "pl" = some sampleDocCanon ∧
      unitOf sampleDocCanon "Hello" "en" =
        some (.obj [("state", .str "translated"), ("value", .str "Hello")]) := by
  refine ⟨(claim_C7_canonicalization_idempotent sampleDocCanon).2.1 (by decide), ?_⟩
  have hnoop : ensureLanguagePresent sampleDocCanon "pl" = some sampleDocCanon :=
    (claim_C7_canonicalization_idempotent sampleDocCanon).2.1 (by decide)
  exact (claim_C7_canonicalization_idempotent sampleDocCanon).2.2 sampleDocCanon
    (.obj [("state", .str "translated"), ("value", .str "Hello")]) "Hello" "en"
    hnoop (by decide) (by decide)

/-! ## Lemmas: `handleCellChange` on an existing truthy, non-resettable state -/

/-- Unfolding of `handleCellChange` when the whole access path exists in the
deep clone the handler makes and the current state is truthy and not
`"needsLocalization"`: only `value` is rewritten, the written-back document
goes through `ensureLanguagePresent`.  The hypotheses speak about
`stripArrProps d` because the handler's first step is
`deepClone(data)` (page.tsx:180), the JSON round trip that drops array
expando properties. -/
theorem handleCellChange_unfold_truthy {d S e locs loc su st : JsValue} {k l : String} (value : String)
    (hg : (stripArrProps d).jsGet "strings" = some S) (hk : S.jsGet k = some e)
    (h1 : e.jsGet "localizations" = some locs) (h2 : locs.jsGet l = some loc)
    (h3 : loc.jsGet "stringUnit" = some su) (hst : su.jsGet "state" = some st)
    (hsttrue : st.jsTruthy = true) (hne : st ≠ .str "needsLocalization") :
    handleCellChange d k l value =
      ensureLanguagePresent
        ((stripArrProps d).jsSet "strings" (S.jsSet k (e.jsSet "localizations"
          (locs.jsSet l (loc.jsSet "stringUnit" (su.jsSet "value" (.str value))))))) "pl" := by
  have hsuA : su.jsAssignable = true := JsValue.jsGet_field_shape toIndex_state hst
  have hlocA : loc.jsAssignable = true := JsValue.jsGet_field_shape toIndex_stringUnit h3
  have hlocsA : locs.jsAssignable = true := JsValue.jsGet_chain_shape toIndex_stringUnit h2 h3
  have heA : e.jsAssignable = true := JsValue.jsGet_field_shape toIndex_localizations h1
  have hSA : S.jsAssignable = true := JsValue.jsGet_chain_shape toIndex_localizations hk h1
  have hstate1 : (su.jsSet "value" (.str value)).jsGet "state" = some st := by
    rw [JsValue.jsGet_jsSet_other su "value" "state" _ (by decide), hst]
  have hcond : ¬ ((!st.jsTruthy || decide (st = JsValue.str "needsLocalization")) = true) := by
    rw [hsttrue]
    simp [hne]
  simp only [handleCellChange]
  rw [hg]
  dsimp only
  rw [if_pos hSA, hk]
  dsimp only
  rw [if_pos (JsValue.jsTruthy_of_assignable heA), if_pos heA, h1]
  dsimp only
  rw [if_pos (JsValue.jsTruthy_of_assignable hlocsA), if_pos hlocsA, h2]
  dsimp only
  rw [if_pos (JsValue.jsTruthy_of_assignable hlocA), if_pos hlocA, h3]
  dsimp only
  rw [if_pos (JsValue.jsTruthy_of_assignable hsuA), if_pos hsuA, hstate1]
  dsimp only
  rw [if_neg hcond]

/-- Counterexample to C1: on a StringUnit whose state is `"translated"`,
`handleCellChange` with the empty string leaves the state `"translated"` —
it is not demoted to `"needsLocalization"` as the claim states, because the
state rule (page.tsx:191-193) only rewrites an absent, falsy or
`"needsLocalization"` state. -/
theorem claim_C1_counterexample :
    (handleCellChange translatedDoc "k" "en" "").bind (fun d => unitStateOf d "k" "en") =
      some (.str "translated") ∧
    (handleCellChange translatedDoc "k" "en" "").bind (fun d => unitStateOf d "k" "en") ≠
      some (.str "needsLocalization") := by
  constructor
  · decide
  · decide

/-- C1 amended: the state rule acts on the unit the handler actually sees —
`handleCellChange` first deep-clones the document through JSON
(page.tsx:180), which drops array expando properties.  Whenever the cloned
document's StringUnit at the edited key and language has a truthy state
other than `"needsLocalization"` (such as `"translated"`), the cell edit
stores the new value but leaves the state untouched, whether the new value
is empty or not: editing a `"translated"` cell to the empty string keeps
the state `"translated"` instead of demoting it.  (For every document the
JSON deep clone leaves unchanged — any freshly parsed document — the clone's
unit is the document's own unit; a unit held on an array expando property,
as after parsing `{"strings":{"k":[]}}`, is dropped by the clone, so the
edit recreates a default unit whose state follows the value, and this rule
does not apply to it.) -/
theorem claim_C1_state_not_demoted :
    ∀ (d d' st : JsValue) (k l value : String),
      unitStateOf (stripArrProps d) k l = some st →
      st.jsTruthy = true →
      st ≠ .str "needsLocalization" →
      handleCellChange d k l value = some d' →
      unitStateOf d' k l = some st ∧ unitValueOf d' k l = some (.str value) := by
  intro d d' st k l value hu hsttrue hne hedit
  unfold unitStateOf at hu
  cases hun : unitOf (stripArrProps d) k l with
  | none => rw [hun] at hu; exact absurd hu (by simp)
  | some su =>
      rw [hun, Option.some_bind] at hu
      unfold unitOf at hun
      cases hg : (stripArrProps d).jsGet "strings" with
      | none => rw [hg] at hun; exact absurd hun (by simp)
      | some S =>
          rw [hg, Option.some_bind] at hun
          cases hk : S.jsGet k with
          | none => rw [hk] at hun; exact absurd hun (by simp)
          | some e =>
              rw [hk, Option.some_bind] at hun
              obtain ⟨locs, loc, h1, h2, h3⟩ := entryUnit_elim hun
              have hsuA : su.jsAssignable = true := JsValue.jsGet_field_shape toIndex_state hu
              have hlocA : loc.jsAssignable = true :=
                JsValue.jsGet_field_shape toIndex_stringUnit h3
              have hlocsA : locs.jsAssignable = true :=
                JsValue.jsGet_chain_shape toIndex_stringUnit h2 h3
              have heA : e.jsAssignable = true :=
                JsValue.jsGet_field_shape toIndex_localizations h1
              have hSA : S.jsAssignable = true :=
                JsValue.jsGet_chain_shape toIndex_localizations hk h1
              have hdA : (stripArrProps d).jsAssignable = true :=
                JsValue.jsGet_field_shape toIndex_strings hg
              rw [handleCellChange_unfold_truthy value hg hk h1 h2 h3 hu hsttrue hne] at hedit
              have hpath : unitOf ((stripArrProps d).jsSet "strings"
                  (S.jsSet k (e.jsSet "localizations"
                    (locs.jsSet l (loc.jsSet "stringUnit" (su.jsSet "value" (.str value)))))))
                  k l = some (su.jsSet "value" (.str value)) := by
                unfold unitOf
                rw [JsValue.jsGet_jsSet_self _ _ _ hdA, Option.some_bind,
                  JsValue.jsGet_jsSet_self _ _ _ hSA, Option.some_bind]
                exact entryUnit_intro (JsValue.jsGet_jsSet_self _ _ _ heA)
                  (JsValue.jsGet_jsSet_self _ _ _ hlocsA)
                  (JsValue.jsGet_jsSet_self _ _ _ hlocA)
              have hsu1T : (su.jsSet "value" (.str value)).jsTruthy = true :=
                JsValue.jsTruthy_of_assignable (JsValue.jsAssignable_jsSet _ _ hsuA)
              have hres := ensure_preserves_unit hedit hpath hsu1T
              constructor
              · unfold unitStateOf
                rw [hres, Option.some_bind,
                  JsValue.jsGet_jsSet_other su "value" "state" _ (by decide), hu]
              · unfold unitValueOf
                rw [hres, Option.some_bind, JsValue.jsGet_jsSet_self _ _ _ hsuA]

/-- Witness for the amended C1 at `translatedDoc` (which the deep clone
leaves unchanged): a non-empty edit of the `"en"` cell keeps the state
`"translated"` and stores the new value. -/
theorem claim_C1_witness :
    unitStateOf translatedDocEdited "k" "en" = some (.str "translated") ∧
      unitValueOf translatedDocEdited "k" "en" = some (.str "y") :=
  claim_C1_state_not_demoted translatedDoc translatedDocEdited (.str "translated") "k" "en" "y"
    (by decide) (by decide) (by decide) (by decide)

/-! ## Claims about the controller state -/

/-- Counterexample to C2: with a previously accepted Document current,
firing the debounced parse on malformed text does not leave that Document
intact — `setData(null)` clears it (page.tsx:163) — and the download
handler then fails instead of exporting the prior Document. -/
theorem claim_C2_counterexample :
    exampleState.data = some sampleDocCanon ∧
    (textEditFire exampleState none).data = none ∧
    handleDownload (textEditFire exampleState none) = .error .cannotExport := by
  refine ⟨rfl, ?_, ?_⟩
  · decide
  · decide

/-- C2 amended: when the debounced text→model parse fails (malformed JSON,
invalid `strings` field, or a canonicalization `TypeError`), the firing
surfaces the error, keeps the text buffer, and sets the current Document to
absent — the prior Document does not remain current — and a subsequent
download attempt fails with the export error instead of exporting the prior
Document (the Download button is also disabled while the error is shown). -/
theorem claim_C2_failed_parse_clears_document :
    ∀ (s : AppState) (t : Option JsValue) (e : ParseError),
      parsePipeline t = .error e →
      textEditFire s t = { s with code := t, data := none, parseError := some e } ∧
      handleDownload (textEditFire s t) = .error .cannotExport := by
  intro s t e h
  unfold textEditFire fireCodeToDataParse
  rw [h]
  refine ⟨rfl, ?_⟩
  unfold handleDownload
  dsimp only
  rw [h]

/-- Witness for the amended C2: from `exampleState`, a malformed text edit
fires into the error state with the document cleared and download failing. -/
theorem claim_C2_witness :
    textEditFire exampleState none =
      { exampleState with code := none, data := none, parseError := some .syntaxError } ∧
    handleDownload (textEditFire exampleState none) = .error .cannotExport :=
  claim_C2_failed_parse_clears_document exampleState none .syntaxError (by decide)

/-- C10: when an imported file's content fails the parse/validate/
canonicalize pipeline, `handleImportChange` leaves the current Document and
the text buffer (and the page) unchanged and only sets the error message —
unlike a failed debounced parse on the same content, which clears the
current Document. -/
theorem claim_C10_import_failure_preserves_state :
    ∀ (s : AppState) (t : Option JsValue) (e : ParseError),
      parsePipeline t = .error e →
      handleImportChange s t = { s with parseError := some e } ∧
      (handleImportChange s t).data = s.data ∧
      (handleImportChange s t).code = s.code ∧
      (handleImportChange s t).page = s.page ∧
      (textEditFire s t).data = none := by
  intro s t e h
  unfold handleImportChange
  rw [h]
  refine ⟨rfl, rfl, rfl, rfl, ?_⟩
  unfold textEditFire fireCodeToDataParse
  rw [h]

/-- Witness for C10: importing a malformed file from `exampleState` keeps
document and text buffer and only sets the error. -/
theorem claim_C10_witness :
    handleImportChange exampleState none =
      { exampleState with parseError := some .syntaxError } ∧
    (handleImportChange exampleState none).data = exampleState.data ∧
    (handleImportChange exampleState none).code = exampleState.code ∧
    (handleImportChange exampleState none).page = exampleState.page ∧
    (textEditFire exampleState none).data = none :=
  claim_C10_import_failure_preserves_state exampleState none .syntaxError (by decide)

/-! ## Claim C4: error classification of the parser/validator -/

/-- Counterexample to C4: `{"strings": []}` is well-formed JSON whose
`strings` field is not a mapping, yet the pipeline accepts it (no
`SchemaError`), because the check `typeof parsed.strings !== "object"`
(page.tsx:151) classifies arrays (and `null`) as `"object"`. -/
theorem claim_C4_counterexample :
    isMappingStrings arrayStringsDoc = false ∧
    parsePipeline (some arrayStringsDoc) = .ok arrayStringsDoc ∧
    (Except.ok arrayStringsDoc ≠ (.error .schemaError : Except ParseError JsValue)) := by
  refine ⟨by decide, by decide, by simp⟩

/-- C4 amended: the pipeline fails with `SyntaxError` exactly when the text
is not well-formed JSON, and fails with `SchemaError` exactly when the
decoded value fails the `typeof`-based validation — the top-level value must
be truthy with `typeof` `"object"` and its `strings` field present with
`typeof` `"object"` — which accepts a `null` or array `strings`; a valid
document whose entries are truthy primitives fails instead with a
`TypeError`-derived message.  `{"strings": "not-a-mapping"}` fails with
`SchemaError`, distinct from `SyntaxError`. -/
theorem claim_C4_error_classification :
    (∀ t : Option JsValue, parsePipeline t = .error .syntaxError ↔ t = none) ∧
    (∀ v : JsValue, parsePipeline (some v) = .error .schemaError ↔ validateXc v = false) ∧
    (parsePipeline (some (.obj [("strings", .str "not-a-mapping")])) = .error .schemaError) ∧
    (parsePipeline (some (.obj [("strings", .null)])) = .ok (.obj [("strings", .null)])) ∧
    (parsePipeline (some (.obj [("strings", .obj [("k", .str "boom")])])) =
      .error .typeError) := by
  refine ⟨?_, ?_, by decide, by decide, by decide⟩
  · intro t
    cases t with
    | none => exact ⟨fun _ => rfl, fun _ => rfl⟩
    | some v =>
        constructor
        · intro h
          exfalso
          unfold parsePipeline at h
          dsimp only at h
          by_cases hv : validateXc v
          · rw [if_pos hv] at h
            cases he : ensureLanguagePresent (stripArrProps v) "pl" with
            | some w => rw [he] at h; exact absurd h (by simp)
            | none => rw [he] at h; exact absurd h (by simp)
          · rw [if_neg hv] at h; exact absurd h (by simp)
        · intro h
          exact absurd h (by simp)
  · intro v
    unfold parsePipeline
    dsimp only
    by_cases hv : validateXc v
    · rw [if_pos hv]
      constructor
      · intro h
        exfalso
        cases he : ensureLanguagePresent (stripArrProps v) "pl" with
        | some w => rw [he] at h; exact absurd h (by simp)
        | none => rw [he] at h; exact absurd h (by simp)
      · intro h
        rw [h] at hv
        exact absurd hv (by simp)
    · rw [if_neg hv]
      exact ⟨fun _ => by simpa using hv, fun _ => rfl⟩

/-! ## Claim C8: pagination bounds -/

/-- C8: for every key list, every `pageSize ≥ 1`, and every requested page
index, pagination returns a contiguous slice of length at most `pageSize`
and never goes out of range: the effective page index is re-derived as
`min(requested, ceil(total / pageSize) - 1)` (natural-number subtraction, so
page 0 when the list is empty), and for a non-empty list the slice's start
stays below the total.  Totality of `paginatedKeys` is the model's form of
"never throws". -/
theorem claim_C8_pagination_bounds :
    ∀ (keys : List String) (page pageSize : Nat), 1 ≤ pageSize →
      paginatedKeys page pageSize keys =
        (keys.drop (currentPageOf page keys.length pageSize * pageSize)).take pageSize ∧
      (paginatedKeys page pageSize keys).length ≤ pageSize ∧
      currentPageOf page keys.length pageSize =
        min page ((keys.length + pageSize - 1) / pageSize - 1) ∧
      (0 < keys.length → currentPageOf page keys.length pageSize * pageSize < keys.length) := by
  intro keys page pageSize hps
  refine ⟨rfl, ?_, ?_, ?_⟩
  · unfold paginatedKeys
    rw [List.length_take]
    exact min_le_left _ _
  · unfold currentPageOf totalPages
    have h0 : max 1 ((keys.length + pageSize - 1) / pageSize) - 1 =
        (keys.length + pageSize - 1) / pageSize - 1 := by omega
    rw [h0]
  · intro hlen
    have hq : (keys.length + pageSize - 1) / pageSize * pageSize ≤ keys.length + pageSize - 1 :=
      Nat.div_mul_le_self _ _
    have hcp : currentPageOf page keys.length pageSize ≤
        (keys.length + pageSize - 1) / pageSize - 1 := by
      unfold currentPageOf totalPages
      omega
    have hmul : currentPageOf page keys.length pageSize * pageSize ≤
        ((keys.length + pageSize - 1) / pageSize - 1) * pageSize :=
      Nat.mul_le_mul_right _ hcp
    have hsub : ((keys.length + pageSize - 1) / pageSize - 1) * pageSize =
        (keys.length + pageSize - 1) / pageSize * pageSize - 1 * pageSize :=
      (Nat.sub_mul _ _ _)
    rw [hsub] at hmul
    omega

/-- Witness for C8: three keys, page size 2, requested page 5 — the page is
clamped to index 1 and the slice stays in range. -/
theorem claim_C8_witness :
    paginatedKeys 5 2 ["a", "b", "c"] =
      ((["a", "b", "c"] : List String).drop (currentPageOf 5 3 2 * 2)).take 2 ∧
    (paginatedKeys 5 2 ["a", "b", "c"]).length ≤ 2 ∧
    currentPageOf 5 3 2 = min 5 ((3 + 2 - 1) / 2 - 1) ∧
    (0 < 3 → currentPageOf 5 3 2 * 2 < 3) :=
  claim_C8_pagination_bounds ["a", "b", "c"] 5 2 (by decide)

/-! ## Claim C9: key filtering -/

theorem isInfixB_nil (l : List Char) : isInfixB [] l = true := by
  cases l with
  | nil => rfl
  | cons c rest => rfl

theorem jsIncludes_empty (s : String) : jsIncludes s "" = true := by
  unfold jsIncludes
  exact isInfixB_nil s.data

/-- Counterexample to C9: the code trims the filter before matching, so with
the filter `" A "` the key `"xay"` is returned even though it does not
contain `" a "` as a (case-insensitive) substring. -/
theorem claim_C9_counterexample :
    filteredKeysOf " A " ["xay"] = ["xay"] ∧
    jsIncludes (jsToLower "xay") (jsToLower " A ") = false := by
  exact ⟨by decide, by decide⟩

/-- C9 amended: filtering returns exactly the keys containing the
*trimmed* filter as a case-insensitive substring, in the same relative
order the keys appear in the source mapping (the result is a sublist of the
input); a filter that trims to the empty string returns all keys
unchanged. -/
theorem claim_C9_filter_trimmed :
    ∀ (keys : List String) (keyFilter : String),
      filteredKeysOf keyFilter keys =
        keys.filter (fun k => jsIncludes (jsToLower k) (jsToLower (jsTrim keyFilter))) ∧
      List.Sublist (filteredKeysOf keyFilter keys) keys ∧
      (jsTrim keyFilter = "" → filteredKeysOf keyFilter keys = keys) := by
  intro keys keyFilter
  unfold filteredKeysOf
  by_cases hq : jsToLower (jsTrim keyFilter) = ""
  · rw [if_pos hq]
    refine ⟨?_, List.Sublist.refl _, fun _ => rfl⟩
    rw [hq]
    exact (List.filter_eq_self.mpr (fun k _ => jsIncludes_empty (jsToLower k))).symm
  · rw [if_neg hq]
    exact ⟨rfl, List.filter_sublist _, fun h => absurd (by rw [h]; rfl) hq⟩

/-- Witness for C9: the empty filter returns all keys in order. -/
theorem claim_C9_witness :
    filteredKeysOf "" ["b", "a"] = ["b", "a"] :=
  (claim_C9_filter_trimmed ["b", "a"] "").2.2 (by decide)

/-! ## Claim C3: language discovery -/

theorem unitsLe_total : ∀ a b : List Nat, unitsLe a b = true ∨ unitsLe b a = true := by
  intro a
  induction a with
  | nil => intro b; exact Or.inl rfl
  | cons x xs ih =>
      intro b
      cases b with
      | nil => exact Or.inr rfl
      | cons y ys =>
          simp only [unitsLe]
          rcases Nat.lt_trichotomy x y with h | h | h
          · left; rw [if_pos h]
          · subst h
            rcases ih ys with h' | h'
            · left; rw [if_neg (lt_irrefl x), if_pos rfl]; exact h'
            · right; rw [if_neg (lt_irrefl x), if_pos rfl]; exact h'
          · right; rw [if_pos h]

theorem unitsLe_trans : ∀ a b c : List Nat,
    unitsLe a b = true → unitsLe b c = true → unitsLe a c = true := by
  intro a
  induction a with
  | nil => intro b c _ _; rfl
  | cons x xs ih =>
      intro b c h1 h2
      cases b with
      | nil => simp [unitsLe] at h1
      | cons y ys =>
          cases c with
          | nil => simp [unitsLe] at h2
          | cons z zs =>
              simp only [unitsLe] at h1 h2 ⊢
              by_cases hxy : x < y
              · rw [if_pos hxy] at h1
                by_cases hyz : y < z
                · rw [if_pos (by omega : x < z)]
                · rw [if_neg hyz] at h2
                  by_cases hyz' : y = z
                  · rw [if_pos (by omega : x < z)]
                  · rw [if_neg hyz'] at h2; exact absurd h2 (by simp)
              · rw [if_neg hxy] at h1
                by_cases hxy' : x = y
                · rw [if_pos hxy'] at h1
                  subst hxy'
                  by_cases hyz : x < z
                  · rw [if_pos hyz]
                  · rw [if_neg hyz] at h2 ⊢
                    by_cases hyz' : x = z
                    · rw [if_pos hyz'] at h2 ⊢
                      exact ih ys zs h1 h2
                    · rw [if_neg hyz'] at h2; exact absurd h2 (by simp)
                · rw [if_neg hxy'] at h1; exact absurd h1 (by simp)

instance : IsTotal String jsStrLe :=
  ⟨fun a b => by
    unfold jsStrLe
    exact unitsLe_total (utf16Units a) (utf16Units b)⟩

instance : IsTrans String jsStrLe :=
  ⟨fun a b c h1 h2 => unitsLe_trans (utf16Units a) (utf16Units b) (utf16Units c) h1 h2⟩

theorem mem_setAdd {l : List String} {x y : String} :
    y ∈ setAdd l x ↔ y ∈ l ∨ y = x := by
  unfold setAdd
  by_cases h : x ∈ l
  · rw [if_pos h]
    constructor
    · exact Or.inl
    · rintro (hy | rfl)
      · exact hy
      · exact h
  · rw [if_neg h]
    simp

theorem mem_foldl_setAdd : ∀ (xs acc : List String) (y : String),
    y ∈ xs.foldl setAdd acc ↔ y ∈ acc ∨ y ∈ xs := by
  intro xs
  induction xs with
  | nil => intro acc y; simp
  | cons x rest ih =>
      intro acc y
      rw [List.foldl_cons, ih, mem_setAdd]
      simp [or_assoc]

theorem mem_collect_fold (g : String → List String) :
    ∀ (keys acc : List String) (y : String),
      y ∈ keys.foldl (fun acc k => (g k).foldl setAdd acc) acc ↔
        y ∈ acc ∨ ∃ k ∈ keys, y ∈ g k := by
  intro keys
  induction keys with
  | nil => intro acc y; simp
  | cons k rest ih =>
      intro acc y
      rw [List.foldl_cons, ih, mem_foldl_setAdd]
      constructor
      · rintro ((hy | hy) | ⟨k', hk', hy⟩)
        · exact Or.inl hy
        · exact Or.inr ⟨k, List.mem_cons_self _ _, hy⟩
        · exact Or.inr ⟨k', List.mem_cons_of_mem _ hk', hy⟩
      · rintro (hy | ⟨k', hk', hy⟩)
        · exact Or.inl (Or.inl hy)
        · rcases List.mem_cons.mp hk' with rfl | hk''
          · exact Or.inl (Or.inr hy)
          · exact Or.inr ⟨k', hk'', hy⟩

theorem mem_collectLangs {d : JsValue} {y : String} :
    y ∈ collectLangs d ↔
      ∃ k ∈ ((d.jsGet "strings").getD .null).jsKeys,
        y ∈ (locsOfEntry ((d.jsGet "strings").getD .null) k).jsKeys := by
  unfold collectLangs
  rw [mem_collect_fold]
  simp

theorem mem_getAllLanguages {d : JsValue} {y : String} :
    y ∈ getAllLanguages d ↔ y ∈ collectLangs d := by
  unfold getAllLanguages
  exact List.mem_insertionSort jsStrLe

/-- Counterexample to C3: with only `"zh"` occurring, the `languages` memo
appends `"pl"` *after* the sorted tags (`[...langs, "pl"]`, page.tsx:88), so
the derived list is `["zh", "pl"]` and not the sorted union
`["pl", "zh"]`. -/
theorem claim_C3_counterexample :
    languagesOf (some zhDoc) = ["zh", "pl"] ∧
    discoverLanguagesSpec zhDoc = ["pl", "zh"] ∧
    languagesOf (some zhDoc) ≠ discoverLanguagesSpec zhDoc := by
  refine ⟨by decide, by decide, by decide⟩

/-- C3 amended: the derived language list contains exactly the language tags
occurring under some entry's `localizations` together with `"pl"`; the tags
that do occur are listed first, lexicographically sorted in UTF-16 code-unit
order, and `"pl"` is appended at the end when it occurs in no entry — so the
full list is sorted only when `"pl"` already occurs or sorts last. -/
theorem claim_C3_languages_member_sorted :
    ∀ d : JsValue,
      "pl" ∈ languagesOf (some d) ∧
      (∀ l, l ∈ languagesOf (some d) ↔
        ((∃ k ∈ ((d.jsGet "strings").getD .null).jsKeys,
            l ∈ (locsOfEntry ((d.jsGet "strings").getD .null) k).jsKeys) ∨ l = "pl")) ∧
      List.Sorted jsStrLe (getAllLanguages d) ∧
      (languagesOf (some d) = getAllLanguages d ∨
        languagesOf (some d) = getAllLanguages d ++ ["pl"]) := by
  intro d
  have hmemiff : ∀ l, l ∈ languagesOf (some d) ↔ (l ∈ collectLangs d ∨ l = "pl") := by
    intro l
    simp only [languagesOf]
    by_cases hpl : "pl" ∈ getAllLanguages d
    · rw [if_pos hpl]
      rw [mem_getAllLanguages]
      constructor
      · exact Or.inl
      · rintro (hl | rfl)
        · exact hl
        · exact mem_getAllLanguages.mp hpl
    · rw [if_neg hpl]
      rw [List.mem_append, mem_getAllLanguages]
      simp
  refine ⟨?_, ?_, ?_, ?_⟩
  · exact (hmemiff "pl").mpr (Or.inr rfl)
  · intro l
    rw [hmemiff l, mem_collectLangs]
  · exact List.sorted_insertionSort jsStrLe (collectLangs d)
  · simp only [languagesOf]
    by_cases hpl : "pl" ∈ getAllLanguages d
    · rw [if_pos hpl]; exact Or.inl rfl
    · rw [if_neg hpl]; exact Or.inr rfl

/-! ## Claim C6: serialize/parse round trip -/

theorem typeofObject_of_assignable {x : JsValue} (h : x.jsAssignable = true) :
    x.typeofObject = true := by
  cases x <;> first | rfl | simp [JsValue.jsAssignable] at h

theorem arrFree_entryBase {e0 : JsValue} (h : ArrFree e0) : ArrFree (entryBase e0) := by
  unfold entryBase
  by_cases ht : e0.jsTruthy
  · rw [if_pos ht]; exact h
  · rw [if_neg ht]; exact arrFree_obj_nil

theorem arrFree_locsBase {e : JsValue} (h : ArrFree e) : ArrFree (locsBase e) := by
  unfold locsBase
  cases hg : e.jsGet "localizations" with
  | none => exact arrFree_obj_nil
  | some l =>
      dsimp only
      by_cases ht : l.jsTruthy
      · rw [if_pos ht]; exact arrFree_jsGet h hg
      · rw [if_neg ht]; exact arrFree_obj_nil

theorem arrFree_canonLocs {language : String} {locs locs' : JsValue} (hl : ArrFree locs)
    (h : canonLocs language locs = some locs') : ArrFree locs' := by
  unfold canonLocs at h
  cases hlv : locs.jsGet language with
  | none =>
      rw [hlv] at h
      exact (Option.some.inj h) ▸ arrFree_jsSet _ hl arrFree_defaultLocalization
  | some lv =>
      rw [hlv] at h
      dsimp only at h
      have hlvF : ArrFree lv := arrFree_jsGet hl hlv
      by_cases ht : lv.jsTruthy
      · rw [if_pos ht] at h
        cases hsu : lv.jsGet "stringUnit" with
        | none =>
            rw [hsu] at h
            dsimp only at h
            by_cases hA : lv.jsAssignable
            · rw [if_pos hA] at h
              exact (Option.some.inj h) ▸
                arrFree_jsSet _ hl (arrFree_jsSet _ hlvF arrFree_defaultStringUnit)
            · rw [if_neg hA] at h; exact absurd h (by simp)
        | some su =>
            rw [hsu] at h
            dsimp only at h
            by_cases hst : su.jsTruthy
            · rw [if_pos hst] at h
              exact (Option.some.inj h) ▸ hl
            · rw [if_neg hst] at h
              by_cases hA : lv.jsAssignable
              · rw [if_pos hA] at h
                exact (Option.some.inj h) ▸
                  arrFree_jsSet _ hl (arrFree_jsSet _ hlvF arrFree_defaultStringUnit)
              · rw [if_neg hA] at h; exact absurd h (by simp)
      · rw [if_neg ht] at h
        exact (Option.some.inj h) ▸ arrFree_jsSet _ hl arrFree_defaultLocalization

theorem arrFree_canonEntry {language : String} {e0 e' : JsValue} (he : ArrFree e0)
    (h : canonEntry language e0 = some e') : ArrFree e' := by
  obtain ⟨hE, hL, locs', hcl, rfl⟩ := canonEntry_eq h
  exact arrFree_jsSet _ (arrFree_entryBase he)
    (arrFree_canonLocs (arrFree_locsBase (arrFree_entryBase he)) hcl)

theorem arrFreeFields_canonFields {language : String} {fs fs' : List (String × JsValue)}
    (hf : ArrFreeFields fs) (h : canonFields language fs = some fs') : ArrFreeFields fs' := by
  induction fs generalizing fs' with
  | nil =>
      unfold canonFields mapOpt at h
      exact (Option.some.inj h) ▸ hf
  | cons p rest ih =>
      obtain ⟨k0, v0⟩ := p
      unfold canonFields at h ih
      obtain ⟨y, ys, hfy, hrest, rfl⟩ := mapOpt_cons_some h
      unfold ArrFreeFields at hf
      cases hc : canonEntry language v0 with
      | none => rw [hc] at hfy; exact absurd hfy (by simp)
      | some v0' =>
          rw [hc, Option.map_some'] at hfy
          obtain rfl : (k0, v0') = y := Option.some.inj hfy
          unfold ArrFreeFields
          exact ⟨arrFree_canonEntry hf.1 hc, ih hf.2 hrest⟩

theorem arrFree_canonStrings {language : String} {S S' : JsValue} (hS : ArrFree S)
    (h : canonStrings language S = some S') : ArrFree S' := by
  cases S with
  | obj fs =>
      unfold canonStrings at h
      dsimp only at h
      cases hcf : canonFields language fs with
      | none => rw [hcf] at h; exact absurd h (by simp)
      | some fs' =>
          rw [hcf, Option.map_some'] at h
          obtain rfl : JsValue.obj fs' = S' := Option.some.inj h
          unfold ArrFree at hS ⊢
          exact arrFreeFields_canonFields hS hcf
  | arr elems props => unfold ArrFree at hS; exact hS.elim
  | str s =>
      unfold canonStrings at h
      dsimp only at h
      by_cases hs : s = ""
      · rw [if_pos hs] at h
        obtain rfl : JsValue.str "" = S' := Option.some.inj h
        unfold ArrFree
        trivial
      · rw [if_neg hs] at h; exact absurd h (by simp)
  | null => exact (Option.some.inj h) ▸ hS
  | bool b => exact (Option.some.inj h) ▸ hS
  | num n => exact (Option.some.inj h) ▸ hS

theorem arrFree_ensure {d w : JsValue} {language : String} (hd : ArrFree d)
    (h : ensureLanguagePresent d language = some w) : ArrFree w := by
  obtain ⟨hn, hcase⟩ := ensure_eq_some h
  rcases hcase with ⟨_, rfl⟩ | ⟨S, S', hg, hc, rfl⟩
  · exact hd
  · exact arrFree_jsSet _ hd (arrFree_canonStrings (arrFree_jsGet hd hg) hc)

/-- The validation survives canonicalization: a validated document stays
truthy, of `typeof` `"object"`, with a `typeof`-`"object"` `strings`. -/
theorem validateXc_ensure {v w : JsValue} (hv : validateXc v = true)
    (h : ensureLanguagePresent v "pl" = some w) : validateXc w = true := by
  unfold validateXc at hv
  rw [Bool.and_eq_true, Bool.and_eq_true] at hv
  obtain ⟨⟨hT, hO⟩, hS⟩ := hv
  obtain ⟨hn, hcase⟩ := ensure_eq_some h
  rcases hcase with ⟨hg, rfl⟩ | ⟨S, S', hg, hc, rfl⟩
  · unfold validateXc
    rw [Bool.and_eq_true, Bool.and_eq_true]
    exact ⟨⟨hT, hO⟩, hS⟩
  · rw [hg] at hS
    have hvA : v.jsAssignable = true := JsValue.jsGet_field_shape toIndex_strings hg
    have hwA : (v.jsSet "strings" S').jsAssignable = true := JsValue.jsAssignable_jsSet _ _ hvA
    unfold validateXc
    rw [Bool.and_eq_true, Bool.and_eq_true]
    refine ⟨⟨JsValue.jsTruthy_of_assignable hwA, typeofObject_of_assignable hwA⟩, ?_⟩
    rw [JsValue.jsGet_jsSet_self _ _ _ hvA]
    dsimp only
    dsimp only at hS
    rw [canonStrings_typeof hc]
    exact hS

/-- Counterexample to C6: for the syntactically valid text
`{"strings": {"k": []}}` (whose `strings` field is a mapping), the
canonicalized parse attaches a `localizations` property to the array entry;
`JSON.stringify` prints only an array's elements, so parsing the
serialization yields a different document — the round trip
`parse(serialize(canonicalize(parse(text)))) == canonicalize(parse(text))`
fails. -/
theorem claim_C6_counterexample :
    parsePipeline (some arrayEntryDoc) = .ok arrayEntryDocCanon ∧
    parseDoc (some (stripArrProps arrayEntryDocCanon)) =
      .ok (stripArrProps arrayEntryDocCanon) ∧
    stripArrProps arrayEntryDocCanon ≠ arrayEntryDocCanon := by
  refine ⟨by decide, by decide, by decide⟩

/-- C6 amended: for every syntactically valid input accepted by the
validation whose decoded value contains no JSON array, and whose
canonicalization succeeds, parsing the serialization of the canonicalized
parse yields the canonicalized parse itself (serialization followed by
re-parsing is `stripArrProps`, the identity on array-free values). -/
theorem claim_C6_roundtrip_arrayfree :
    ∀ v w : JsValue, ArrFree v → validateXc v = true →
      ensureLanguagePresent (stripArrProps v) "pl" = some w →
      parseDoc (some (stripArrProps w)) = .ok w ∧ stripArrProps w = w := by
  intro v w hAF hv he
  rw [stripArrProps_of_arrFree v hAF] at he
  have hwAF : ArrFree w := arrFree_ensure hAF he
  have hstrip : stripArrProps w = w := stripArrProps_of_arrFree w hwAF
  refine ⟨?_, hstrip⟩
  rw [hstrip]
  unfold parseDoc
  dsimp only
  rw [if_pos (validateXc_ensure hv he)]

/-- Witness for the amended C6 at the Scenario B document. -/
theorem claim_C6_witness :
    parseDoc (some (stripArrProps sampleDocCanon)) = .ok sampleDocCanon ∧
      stripArrProps sampleDocCanon = sampleDocCanon :=
  claim_C6_roundtrip_arrayfree sampleDoc sampleDocCanon (by decide) (by decide) (by decide)
